import Mathlib

/-!
Verification of the ttlru cache (zvelo/ttlru).

This file gives a shallow embedding of the Go sources `ttlru.go` and
`ttlheap.go` and settles a list of claims about them.

Modelling conventions:
* Keys and values are `Nat` (Go uses `interface{}` keys compared by value).
* Go pointers to `entry` are modelled by an arena: `CacheState.entries` is a
  list of entries that only ever grows; an entry id (its arena position)
  plays the role of the pointer.  The key index `items` maps keys to ids and
  the expiration heap `heap` is a list of ids.
* `time.Time` instants and `time.Duration` are modelled as `Nat` / `Int`.
  Operations that call `time.Now()` take the current instant as an argument.
* A `*time.Timer` is modelled by three fields on the entry: `timerSet`
  (the timer object exists, i.e. `e.timer != nil`), `timerPending` (the
  one-shot callback is scheduled and has neither fired nor been stopped) and
  `timerAt` (the instant at which it fires).
* Fallible code returns `Option`: `none` models a Go runtime panic
  (out-of-range slice index, nil dereference).  Loops (`up` / `down` of
  `container/heap`) are modelled with an explicit fuel argument that is
  provably sufficient at every call site.
-/

namespace Ttlru

/-- Model of Go `type entry struct` from `ttlru.go`: key, value, heap
back-reference `index`, absolute expiration instant, and the timer state. -/
structure Entry where
  key : Nat
  value : Nat
  index : Int
  expires : Nat
  timerSet : Bool
  timerPending : Bool
  timerAt : Nat
  deriving DecidableEq, Repr, Inhabited

/-- Model of Go `type cache struct`: capacity, ttl, the reset flag, the
arena of all entries ever allocated, the key index `items`, and the
expiration min-heap `heap` (both holding arena ids). -/
structure CacheState where
  cap : Nat
  ttl : Nat
  noReset : Bool
  entries : List Entry
  items : List (Nat × Nat)
  heap : List Nat
  deriving DecidableEq, Repr, Inhabited

/-- Dereference an arena id (a Go pointer dereference, which cannot fail). -/
def getE (s : CacheState) (id : Nat) : Entry :=
  s.entries.getD id default

/-- Mutate the entry behind an arena id in place. -/
def modE (s : CacheState) (id : Nat) (f : Entry → Entry) : CacheState :=
  { s with entries := s.entries.set id (f (getE s id)) }

/-- Go map read `c.items[key]`. -/
def itemsGet : List (Nat × Nat) → Nat → Option Nat
  | [], _ => none
  | p :: t, k => if p.1 = k then some p.2 else itemsGet t k

/-- Go map write `c.items[key] = ent`. -/
def itemsSet : List (Nat × Nat) → Nat → Nat → List (Nat × Nat)
  | [], k, id => [(k, id)]
  | p :: t, k, id => if p.1 = k then (k, id) :: t else p :: itemsSet t k id

/-- Go map delete `delete(c.items, key)`. -/
def itemsErase : List (Nat × Nat) → Nat → List (Nat × Nat)
  | [], _ => []
  | p :: t, k => if p.1 = k then t else p :: itemsErase t k

/-- The id stored at a heap slot (unchecked read for stating invariants). -/
def heapAt (s : CacheState) (p : Nat) : Nat :=
  s.heap.getD p 0

/-! ### `ttlheap.go`: the `heap.Interface` methods

`Less` and `Swap` carry the defensive guards of the source: equal or
negative indices compare `false` / swap nothing.  An in-range pair is read
from the slice; an index beyond the slice length is a Go panic (`none`). -/

/-- `func (h ttlHeap) Less(i, j int) bool`. -/
def hLess (s : CacheState) (i j : Int) : Option Bool :=
  if i = j ∨ i < 0 ∨ j < 0 then some false
  else
    match s.heap[i.toNat]?, s.heap[j.toNat]? with
    | some a, some b => some (decide ((getE s a).expires < (getE s b).expires))
    | _, _ => none

/-- `func (h ttlHeap) Swap(i, j int)`: swap the two slots and write the new
positions into the two entries' `index` fields. -/
def hSwap (s : CacheState) (i j : Int) : Option CacheState :=
  if i = j ∨ i < 0 ∨ j < 0 then some s
  else
    match s.heap[i.toNat]?, s.heap[j.toNat]? with
    | some a, some b =>
      let s1 := { s with heap := (s.heap.set i.toNat b).set j.toNat a }
      let s2 := modE s1 b (fun e => { e with index := i })
      some (modE s2 a (fun e => { e with index := j }))
    | _, _ => none

/-- `func (h *ttlHeap) Push(x interface{})`: set `item.index = n` and
append. -/
def hPushRaw (s : CacheState) (id : Nat) : CacheState :=
  let n := s.heap.length
  let s1 := modE s id (fun e => { e with index := (n : Int) })
  { s1 with heap := s1.heap ++ [id] }

/-- `func (h *ttlHeap) Pop() interface{}`: with the defensive empty check,
remove and return the last element, invalidating its `index`. -/
def hPopRaw (s : CacheState) : CacheState × Option Nat :=
  match s.heap.getLast? with
  | none => (s, none)
  | some id =>
    (({ modE s id (fun e => { e with index := -1 }) with
        heap := s.heap.dropLast }), some id)

/-! ### `container/heap`: `up`, `down`, `Push`, `Pop`, `Remove`, `Fix`

The two loops are written with a fuel argument; the wrappers `up` and
`down` supply fuel that strictly exceeds the loop variant, so the fuel can
never run out (`none` from fuel exhaustion is unreachable). -/

/-- Loop body of `container/heap.up`; the parent index `i` of the Go
source is written out as `(j - 1).tdiv 2` (Go integer division truncates
toward zero). -/
def upGo : Nat → CacheState → Int → Option CacheState
  | 0, _, _ => none
  | fuel + 1, s, j =>
    if (j - 1).tdiv 2 = j then some s
    else
      (hLess s j ((j - 1).tdiv 2)).bind (fun c =>
        if c then
          (hSwap s ((j - 1).tdiv 2) j).bind (fun s1 =>
            upGo fuel s1 ((j - 1).tdiv 2))
        else some s)

/-- `func up(h Interface, j int)`. -/
def up (s : CacheState) (j : Int) : Option CacheState :=
  upGo (j.toNat + 1) s j

/-- Loop body of `container/heap.down`; returns the final `i`.  The Go
locals are written out: `j1 = 2*i + 1`, `j2 = 2*i + 2`, and `j` is `j2`
when the right child exists and compares smaller, else `j1`. -/
def downGo : Nat → CacheState → Int → Int → Option (CacheState × Int)
  | 0, _, _, _ => none
  | fuel + 1, s, i, n =>
    if n ≤ 2 * i + 1 ∨ 2 * i + 1 < 0 then some (s, i)
    else
      (if 2 * i + 2 < n then hLess s (2 * i + 2) (2 * i + 1)
       else some false).bind (fun b =>
        (hLess s (if b then 2 * i + 2 else 2 * i + 1) i).bind (fun c =>
          if c then
            (hSwap s i (if b then 2 * i + 2 else 2 * i + 1)).bind (fun s1 =>
              downGo fuel s1 (if b then 2 * i + 2 else 2 * i + 1) n)
          else some (s, i)))

/-- `func down(h Interface, i0, n int) bool`: the Bool is `i > i0`. -/
def down (s : CacheState) (i n : Int) : Option (CacheState × Bool) :=
  (downGo ((n - i).toNat + 1) s i n).map (fun r => (r.1, decide (i < r.2)))

/-- `func Push(h Interface, x any)`. -/
def heapPush (s : CacheState) (id : Nat) : Option CacheState :=
  let s1 := hPushRaw s id
  up s1 ((s1.heap.length : Int) - 1)

/-- `func Pop(h Interface) any`. -/
def heapPop (s : CacheState) : Option (CacheState × Option Nat) :=
  (hSwap s 0 ((s.heap.length : Int) - 1)).bind (fun s1 =>
    (down s1 0 ((s.heap.length : Int) - 1)).map (fun r => hPopRaw r.1))

/-- `func Remove(h Interface, i int) any`. -/
def heapRemove (s : CacheState) (i : Int) : Option (CacheState × Option Nat) :=
  if (s.heap.length : Int) - 1 = i then some (hPopRaw s)
  else
    (hSwap s i ((s.heap.length : Int) - 1)).bind (fun s1 =>
      (down s1 i ((s.heap.length : Int) - 1)).bind (fun r =>
        if r.2 then some (hPopRaw r.1)
        else (up r.1 i).map (fun s3 => hPopRaw s3)))

/-- `func Fix(h Interface, i int)`. -/
def heapFix (s : CacheState) (i : Int) : Option CacheState :=
  (down s i (s.heap.length : Int)).bind (fun r =>
    if r.2 then some r.1 else up r.1 i)

/-! ### `ttlru.go`: the cache operations

Each operation acquires the lock in the source; the lock disappears in the
sequential model.  Operations that read `time.Now()` take `now : Nat`. -/

/-- `func New(cap int, opts ...Option) Cache`: options set `ttl` and
`NoReset` before validation; `nil` (the invalid sentinel) is `none`. -/
def New (cap ttl : Int) (noReset : Bool) : Option CacheState :=
  if cap ≤ 0 ∨ ttl < 0 then none
  else some { cap := cap.toNat, ttl := ttl.toNat, noReset := noReset,
              entries := [], items := [], heap := [] }

/-- `func (c *cache) insertEntry(key, value interface{}) *entry`: allocate
the entry (`expires = now + ttl`; a timer scheduled at `now + ttl` iff
`ttl > 0`), `heap.Push` it, and store it in the key index. -/
def insertEntry (s : CacheState) (k v now : Nat) : Option CacheState :=
  let id := s.entries.length
  let e : Entry :=
    { key := k, value := v, index := 0, expires := now + s.ttl,
      timerSet := decide (0 < s.ttl), timerPending := decide (0 < s.ttl),
      timerAt := now + s.ttl }
  let s0 := { s with entries := s.entries ++ [e] }
  (heapPush s0 id).map (fun s1 => { s1 with items := itemsSet s1.items k id })

/-- `func (c *cache) resetEntryTTL(e *entry)`: if `ttl > 0` reschedule the
timer (a nil timer would be a panic), set `expires = now + ttl`, and
`heap.Fix` the entry's position. -/
def resetEntryTTL (s : CacheState) (id : Nat) (now : Nat) : Option CacheState :=
  (if 0 < s.ttl then
    (if (getE s id).timerSet then
      some (modE s id (fun e =>
        { e with timerPending := true, timerAt := now + s.ttl }))
    else none)
  else some s).bind (fun s1 =>
    heapFix (modE s1 id (fun e => { e with expires := now + s1.ttl }))
      (getE (modE s1 id (fun e => { e with expires := now + s1.ttl })) id).index)

/-- `func (c *cache) updateEntry(e *entry, value interface{})`. -/
def updateEntry (s : CacheState) (id : Nat) (v now : Nat) : Option CacheState :=
  resetEntryTTL (modE s id (fun e => { e with value := v })) id now

/-- `func (c *cache) removeEntry(e *entry)`: `heap.Remove` at the recorded
index when it is not invalidated, stop a non-nil timer, and delete the
entry's key from the key index. -/
def removeEntry (s : CacheState) (id : Nat) : Option CacheState :=
  (if 0 ≤ (getE s id).index then
    (heapRemove s (getE s id).index).map (fun r => r.1)
  else some s).map (fun s1 =>
    let s2 :=
      if (getE s1 id).timerSet then
        modE s1 id (fun e => { e with timerPending := false })
      else s1
    { s2 with items := itemsErase s2.items (getE s2 id).key })

/-- `func (c *cache) Set(key, value interface{}) bool`: update in place if
present; otherwise evict the heap root when at capacity, then insert. -/
def setOp (s : CacheState) (k v now : Nat) : Option (CacheState × Bool) :=
  match itemsGet s.items k with
  | some id => (updateEntry s id v now).map (fun s1 => (s1, false))
  | none =>
    if s.heap.length = s.cap then
      s.heap.head?.bind (fun rootId =>
        (removeEntry s rootId).bind (fun s1 =>
          (insertEntry s1 k v now).map (fun s2 => (s2, true))))
    else
      (insertEntry s k v now).map (fun s2 => (s2, false))

/-- `func (c *cache) Get(key interface{}) (interface{}, bool)`: absent or
expired keys report `(nil, false)`; a live hit resets the TTL unless
`NoReset` is set. -/
def getOp (s : CacheState) (k now : Nat) :
    Option ((Option Nat × Bool) × CacheState) :=
  match itemsGet s.items k with
  | none => some ((none, false), s)
  | some id =>
    if s.ttl = 0 ∨ now < (getE s id).expires then
      if s.noReset then some ((some (getE s id).value, true), s)
      else
        (resetEntryTTL s id now).map (fun s1 =>
          ((some (getE s1 id).value, true), s1))
    else some ((none, false), s)

/-- `func (c *cache) Del(key interface{}) bool`. -/
def delOp (s : CacheState) (k : Nat) : Option (CacheState × Bool) :=
  match itemsGet s.items k with
  | none => some (s, false)
  | some id => (removeEntry s id).map (fun s1 => (s1, true))

/-- `func (c *cache) Keys() []interface{}`: keys of entries that are live
at `now` (`ttl == 0` or deadline not passed). -/
def keysOp (s : CacheState) (now : Nat) : List Nat :=
  (s.items.filter (fun p => s.ttl = 0 ∨ now < (getE s p.2).expires)).map
    Prod.fst

/-- `func (c *cache) Len() int`: the size of the key index. -/
def lenOp (s : CacheState) : Nat :=
  s.items.length

/-- `func (c *cache) Cap() int`. -/
def capOp (s : CacheState) : Nat :=
  s.cap

/-- `func (c *cache) Purge()`: invalidate the heap index of every entry
still referenced by the key index, then replace both indices with fresh
empty ones.  Timers are not stopped. -/
def purgeOp (s : CacheState) : CacheState :=
  let s1 := s.items.foldl
    (fun acc pr => modE acc pr.2 (fun e => { e with index := -1 })) s
  { s1 with items := [], heap := [] }

/-- The body of the `time.AfterFunc` callback installed by `insertEntry`:
the timer fires (it is no longer pending) and the callback takes the lock
and runs `removeEntry` on the captured entry. -/
def expireOp (s : CacheState) (id : Nat) : Option CacheState :=
  removeEntry (modE s id (fun e => { e with timerPending := false })) id

/-! ### Reachability

A step is one public operation or one timer callback, executed at an
instant no earlier than the current one (real time is monotone).  `Keys`,
`Len` and `Cap` do not change the state and need no step. -/

/-- One serialized transition of the cache at a (monotone) instant. -/
inductive Step : Nat × CacheState → Nat × CacheState → Prop
  | set {t s t' s1 b} (k v : Nat) : t ≤ t' → setOp s k v t' = some (s1, b) →
      Step (t, s) (t', s1)
  | get {t s t' s1 r} (k : Nat) : t ≤ t' → getOp s k t' = some (r, s1) →
      Step (t, s) (t', s1)
  | del {t s t' s1 b} (k : Nat) : t ≤ t' → delOp s k = some (s1, b) →
      Step (t, s) (t', s1)
  | purge {t s t'} : t ≤ t' → Step (t, s) (t', purgeOp s)
  | expire {t s t' s1} (id : Nat) : t ≤ t' →
      (getE s id).timerPending = true → (getE s id).timerAt ≤ t' →
      expireOp s id = some s1 → Step (t, s) (t', s1)

/-- Reachability from a freshly constructed cache. -/
def Reach (a b : Nat × CacheState) : Prop :=
  Relation.ReflTransGen Step a b

/-! ### The structural invariant -/

/-- Every heap slot holds a valid arena id. -/
def ValidIds (s : CacheState) : Prop :=
  ∀ id ∈ s.heap, id < s.entries.length

/-- Every entry in the heap records its own heap position in `index`. -/
def Backref (s : CacheState) : Prop :=
  ∀ p, p < s.heap.length → (getE s (heapAt s p)).index = (p : Int)

/-- The binary min-heap order on `expires`: each non-root node is no
earlier than its parent. -/
def HeapOrder (s : CacheState) : Prop :=
  ∀ q, q < s.heap.length → q ≠ 0 →
    (getE s (heapAt s ((q - 1) / 2))).expires ≤ (getE s (heapAt s q)).expires

/-- Keys occur at most once in the key index. -/
def KeysNodup (s : CacheState) : Prop :=
  (s.items.map Prod.fst).Nodup

/-- Every key-index pair references a heap member with that key. -/
def ItemsOK (s : CacheState) : Prop :=
  ∀ pr ∈ s.items, pr.2 ∈ s.heap ∧ (getE s pr.2).key = pr.1 ∧
    pr.2 < s.entries.length

/-- Every heap member is found in the key index under its own key. -/
def HeapKeys (s : CacheState) : Prop :=
  ∀ id ∈ s.heap, itemsGet s.items (getE s id).key = some id

/-- An entry owns a timer exactly when the cache ttl is positive. -/
def TimersOK (s : CacheState) : Prop :=
  ∀ e ∈ s.entries, e.timerSet = decide (0 < s.ttl)

/-- A pending callback belongs to an existing timer. -/
def TimersPend (s : CacheState) : Prop :=
  ∀ e ∈ s.entries, e.timerPending = true → e.timerSet = true

/-- Structural well-formedness of a cache state: positive capacity, the two
indices have the same size and stay within capacity, heap slots hold
distinct valid arena ids whose entries record their own position, the heap
is ordered as a binary min-heap on `expires`, keys are unique, the two
indices reference each other consistently, and an entry owns a timer
exactly when the cache has a positive ttl. -/
def Inv (s : CacheState) : Prop :=
  1 ≤ s.cap ∧
  s.items.length = s.heap.length ∧
  s.heap.length ≤ s.cap ∧
  s.heap.Nodup ∧
  ValidIds s ∧ Backref s ∧ HeapOrder s ∧
  KeysNodup s ∧ ItemsOK s ∧ HeapKeys s ∧ TimersOK s ∧ TimersPend s

instance (s : CacheState) : Decidable (Inv s) := by
  unfold Inv ValidIds Backref HeapOrder KeysNodup ItemsOK HeapKeys TimersOK
    TimersPend
  infer_instance

/-- Modelled from the spec: the number of live entries, where a live entry
is one present in the key index whose deadline has not yet passed, or any
present entry when the ttl is zero (spec sections 4.7 and the glossary).
The source has no such function; `Len` is compared against it. -/
def liveEntryCount (s : CacheState) (now : Nat) : Nat :=
  (s.items.filter (fun p => s.ttl = 0 ∨ now < (getE s p.2).expires)).length

/-- No entry owns a scheduler timer or a pending callback. -/
def NoTimers (s : CacheState) : Prop :=
  ∀ id, (getE s id).timerSet = false ∧ (getE s id).timerPending = false

/-! ### Frame predicates and concrete states used by the claim theorems -/

/-- The state `New(1, ttl 5)` constructs. -/
def bugS0 : CacheState :=
  { cap := 1, ttl := 5, noReset := false, entries := [], items := [],
    heap := [] }

/-- After `Set 0 10` at instant 0. -/
def bugS1 : CacheState :=
  ((setOp bugS0 0 10 0).getD (bugS0, false)).1

/-- After `Purge` (the entry's timer keeps running). -/
def bugS2 : CacheState :=
  purgeOp bugS1

/-- After re-inserting key 0 (`Set 0 20`) at instant 2. -/
def bugS3 : CacheState :=
  ((setOp bugS2 0 20 2).getD (bugS2, false)).1

/-- After the stale pre-purge callback fires at instant 5. -/
def bugS4 : CacheState :=
  (expireOp bugS3 0).getD bugS3

/-- A concrete full one-slot cache used to discharge C1's hypotheses. -/
def c1WitState : CacheState :=
  { cap := 1, ttl := 5, noReset := false,
    entries := [{ key := 0, value := 10, index := 0, expires := 5,
                  timerSet := true, timerPending := true, timerAt := 5 }],
    items := [(0, 0)], heap := [0] }

/-- The per-cache configuration never changes after construction. -/
def ConfigPres (s s1 : CacheState) : Prop :=
  s1.cap = s.cap ∧ s1.ttl = s.ttl ∧ s1.noReset = s.noReset

/-- How any operation may move an entry's timer fields: leave them, clear
them, or (only with a positive ttl) reschedule. -/
def TimerFrame (s s1 : CacheState) : Prop :=
  ∀ id, ((getE s1 id).timerSet = (getE s id).timerSet ∨
      (getE s1 id).timerSet = false ∨ 0 < s.ttl) ∧
    ((getE s1 id).timerPending = (getE s id).timerPending ∨
      (getE s1 id).timerPending = false ∨ 0 < s.ttl)

def c6WitState : CacheState :=
  { cap := 2, ttl := 5, noReset := true,
    entries := [{ key := 7, value := 42, index := 0, expires := 5,
                  timerSet := true, timerPending := true, timerAt := 5 }],
    items := [(7, 0)], heap := [0] }

def c10WitState : CacheState :=
  { cap := 2, ttl := 5, noReset := false,
    entries := [{ key := 3, value := 11, index := 0, expires := 5,
                  timerSet := true, timerPending := true, timerAt := 5 }],
    items := [(3, 0)], heap := [0] }

def c5WitState : CacheState :=
  { cap := 2, ttl := 4, noReset := false,
    entries := [{ key := 9, value := 77, index := 0, expires := 4,
                  timerSet := true, timerPending := true, timerAt := 4 }],
    items := [(9, 0)], heap := [0] }

def c3WitState : CacheState :=
  { cap := 1, ttl := 6, noReset := false,
    entries := [{ key := 4, value := 10, index := 0, expires := 6,
                  timerSet := true, timerPending := true, timerAt := 6 }],
    items := [(4, 0)], heap := [0] }

def c7State : CacheState :=
  { cap := 2, ttl := 5, noReset := false,
    entries := [{ key := 0, value := 1, index := 0, expires := 3,
                  timerSet := true, timerPending := true, timerAt := 3 },
                { key := 1, value := 2, index := 1, expires := 4,
                  timerSet := true, timerPending := true, timerAt := 4 }],
    items := [(0, 0), (1, 1)], heap := [0, 1] }

def c7WitState : CacheState :=
  { cap := 2, ttl := 5, noReset := false,
    entries := [{ key := 2, value := 9, index := -1, expires := 4,
                  timerSet := true, timerPending := true, timerAt := 4 }],
    items := [(2, 0)], heap := [] }

/-! ### Generic list helpers -/

/-- Counting after a `set`: the new value replaces the old one. -/
theorem count_set_aux (l : List Nat) (n v x w : Nat) (h : l[n]? = some w) :
    (l.set n v).count x + (if w = x then 1 else 0) =
      l.count x + (if v = x then 1 else 0) := by
  induction l generalizing n with
  | nil => simp at h
  | cons p t ih =>
    cases n with
    | zero =>
      simp only [List.getElem?_cons_zero, Option.some.injEq] at h
      subst h
      simp [List.count_cons]
      split <;> split <;> omega
    | succ m =>
      simp only [List.getElem?_cons_succ] at h
      have := ih m h
      simp [List.count_cons]
      split <;> omega

/-- Swapping two slots of a list is a permutation. -/
theorem swap_perm {l : List Nat} {i j a b : Nat} (hij : i ≠ j)
    (hi : l[i]? = some a) (hj : l[j]? = some b) :
    ((l.set i b).set j a).Perm l := by
  have hj2 : (l.set i b)[j]? = some b := by
    rw [List.getElem?_set_ne hij]; exact hj
  refine List.perm_iff_count.mpr (fun x => ?_)
  have c1 := count_set_aux (l.set i b) j a x b hj2
  have c2 := count_set_aux l i b x a hi
  omega

/-! ### Association-list (key index) lemmas -/

theorem itemsGet_mem {l : List (Nat × Nat)} {k id : Nat}
    (h : itemsGet l k = some id) : (k, id) ∈ l := by
  induction l with
  | nil => simp [itemsGet] at h
  | cons p t ih =>
    by_cases hk : p.1 = k
    · simp only [itemsGet, if_pos hk, Option.some.injEq] at h
      subst h
      subst hk
      exact List.mem_cons_self _ _
    · simp only [itemsGet, if_neg hk] at h
      exact List.mem_cons_of_mem _ (ih h)

theorem itemsGet_mem_keys {l : List (Nat × Nat)} {k id : Nat}
    (h : itemsGet l k = some id) : k ∈ l.map Prod.fst :=
  List.mem_map.mpr ⟨(k, id), itemsGet_mem h, rfl⟩

theorem itemsGet_eq_none_of_not_mem {l : List (Nat × Nat)} {k : Nat}
    (h : k ∉ l.map Prod.fst) : itemsGet l k = none := by
  induction l with
  | nil => rfl
  | cons p t ih =>
    simp only [List.map_cons, List.mem_cons, not_or] at h
    have hk : ¬ p.1 = k := fun hp => h.1 hp.symm
    simp only [itemsGet, if_neg hk]
    exact ih h.2

theorem itemsErase_length {l : List (Nat × Nat)} {k : Nat}
    (h : k ∈ l.map Prod.fst) : (itemsErase l k).length + 1 = l.length := by
  induction l with
  | nil => simp at h
  | cons p t ih =>
    by_cases hk : p.1 = k
    · simp [itemsErase, if_pos hk]
    · simp only [List.map_cons, List.mem_cons] at h
      rcases h with h | h
      · exact absurd h.symm hk
      · simp only [itemsErase, if_neg hk, List.length_cons]
        rw [← ih h]

theorem mem_itemsErase {l : List (Nat × Nat)} {k : Nat} {pr : Nat × Nat}
    (h : pr ∈ itemsErase l k) : pr ∈ l := by
  induction l with
  | nil => simp [itemsErase] at h
  | cons p t ih =>
    by_cases hk : p.1 = k
    · simp only [itemsErase, if_pos hk] at h
      exact List.mem_cons_of_mem _ h
    · simp only [itemsErase, if_neg hk, List.mem_cons] at h
      rcases h with h | h
      · exact h ▸ List.mem_cons_self _ _
      · exact List.mem_cons_of_mem _ (ih h)

theorem itemsGet_itemsErase_self {l : List (Nat × Nat)} {k : Nat}
    (hnd : (l.map Prod.fst).Nodup) : itemsGet (itemsErase l k) k = none := by
  induction l with
  | nil => rfl
  | cons p t ih =>
    simp only [List.map_cons, List.nodup_cons] at hnd
    by_cases hk : p.1 = k
    · simp only [itemsErase, if_pos hk]
      apply itemsGet_eq_none_of_not_mem
      rw [← hk]
      exact hnd.1
    · simp only [itemsErase, if_neg hk, itemsGet, if_neg hk]
      exact ih hnd.2

theorem itemsGet_itemsErase_ne {l : List (Nat × Nat)} {k k2 : Nat}
    (hne : k2 ≠ k) (hnd : (l.map Prod.fst).Nodup) :
    itemsGet (itemsErase l k) k2 = itemsGet l k2 := by
  induction l with
  | nil => rfl
  | cons p t ih =>
    simp only [List.map_cons, List.nodup_cons] at hnd
    by_cases hk : p.1 = k
    · have hk2 : ¬ p.1 = k2 := fun h => hne (h.symm.trans hk)
      simp only [itemsErase, if_pos hk, itemsGet, if_neg hk2]
    · simp only [itemsErase, if_neg hk, itemsGet]
      by_cases hk2 : p.1 = k2
      · simp [if_pos hk2]
      · simp only [if_neg hk2]
        exact ih hnd.2

theorem itemsGet_itemsSet_self (l : List (Nat × Nat)) (k id : Nat) :
    itemsGet (itemsSet l k id) k = some id := by
  induction l with
  | nil => simp [itemsSet, itemsGet]
  | cons p t ih =>
    by_cases hk : p.1 = k
    · simp [itemsSet, if_pos hk, itemsGet]
    · simp only [itemsSet, if_neg hk, itemsGet, if_neg hk]
      exact ih

theorem itemsGet_itemsSet_ne {l : List (Nat × Nat)} {k k2 : Nat} (id : Nat)
    (hne : k2 ≠ k) : itemsGet (itemsSet l k id) k2 = itemsGet l k2 := by
  have hkk : ¬ k = k2 := fun h => hne h.symm
  induction l with
  | nil => simp [itemsSet, itemsGet, if_neg hkk]
  | cons p t ih =>
    by_cases hk : p.1 = k
    · have hk2 : ¬ p.1 = k2 := fun h => hne (h.symm.trans hk)
      simp only [itemsSet, if_pos hk, itemsGet, if_neg hkk, if_neg hk2]
    · simp only [itemsSet, if_neg hk, itemsGet]
      by_cases hk2 : p.1 = k2
      · simp [if_pos hk2]
      · simp only [if_neg hk2]
        exact ih

theorem itemsSet_length_of_absent {l : List (Nat × Nat)} {k : Nat} (id : Nat)
    (h : itemsGet l k = none) : (itemsSet l k id).length = l.length + 1 := by
  induction l with
  | nil => rfl
  | cons p t ih =>
    by_cases hk : p.1 = k
    · simp [itemsGet, if_pos hk] at h
    · simp only [itemsGet, if_neg hk] at h
      simp only [itemsSet, if_neg hk, List.length_cons, ih h]

/-! ### Arena lemmas -/

theorem getE_modE_self {s : CacheState} {id : Nat} (f : Entry → Entry)
    (h : id < s.entries.length) : getE (modE s id f) id = f (getE s id) := by
  simp [getE, modE, List.getD_eq_getElem?_getD, List.getElem?_set_self h]

theorem getE_modE_ne {s : CacheState} {id id2 : Nat} (f : Entry → Entry)
    (h : id2 ≠ id) : getE (modE s id f) id2 = getE s id2 := by
  simp [getE, modE, List.getD_eq_getElem?_getD, List.getElem?_set_ne
    (fun he => h he.symm)]

theorem modE_oob {s : CacheState} {id : Nat} (f : Entry → Entry)
    (h : s.entries.length ≤ id) : modE s id f = s := by
  simp [modE, List.set_eq_of_length_le h]

theorem modE_heap (s : CacheState) (id : Nat) (f : Entry → Entry) :
    (modE s id f).heap = s.heap := rfl

theorem modE_items (s : CacheState) (id : Nat) (f : Entry → Entry) :
    (modE s id f).items = s.items := rfl

theorem modE_entries_length (s : CacheState) (id : Nat) (f : Entry → Entry) :
    (modE s id f).entries.length = s.entries.length := by
  simp [modE]

/-! ### Frame predicates -/

/-- Two entries that agree on everything except the heap back-reference. -/
def EqExceptIndex (a b : Entry) : Prop :=
  a.key = b.key ∧ a.value = b.value ∧ a.expires = b.expires ∧
  a.timerSet = b.timerSet ∧ a.timerPending = b.timerPending ∧
  a.timerAt = b.timerAt

theorem eqExceptIndex_refl (a : Entry) : EqExceptIndex a a :=
  ⟨rfl, rfl, rfl, rfl, rfl, rfl⟩

theorem eqExceptIndex_trans {a b c : Entry} (h1 : EqExceptIndex a b)
    (h2 : EqExceptIndex b c) : EqExceptIndex a c := by
  obtain ⟨x1, x2, x3, x4, x5, x6⟩ := h1
  obtain ⟨y1, y2, y3, y4, y5, y6⟩ := h2
  exact ⟨x1.trans y1, x2.trans y2, x3.trans y3, x4.trans y4,
    x5.trans y5, x6.trans y6⟩

/-- What the heap-reordering primitives leave untouched: configuration,
the key index, the arena size, the multiset of heap members, and every
entry field except `index`. -/
def SameShape (s s1 : CacheState) : Prop :=
  s1.cap = s.cap ∧ s1.ttl = s.ttl ∧ s1.noReset = s.noReset ∧
  s1.items = s.items ∧ s1.entries.length = s.entries.length ∧
  s1.heap.Perm s.heap ∧
  ∀ id, EqExceptIndex (getE s1 id) (getE s id)

theorem sameShape_refl (s : CacheState) : SameShape s s :=
  ⟨rfl, rfl, rfl, rfl, rfl, List.Perm.refl _, fun id => eqExceptIndex_refl _⟩

theorem sameShape_trans {s s1 s2 : CacheState} (h1 : SameShape s s1)
    (h2 : SameShape s1 s2) : SameShape s s2 := by
  obtain ⟨x1, x2, x3, x4, x5, x6, x7⟩ := h1
  obtain ⟨y1, y2, y3, y4, y5, y6, y7⟩ := h2
  exact ⟨y1.trans x1, y2.trans x2, y3.trans x3, y4.trans x4, y5.trans x5,
    y6.trans x6, fun id => eqExceptIndex_trans (y7 id) (x7 id)⟩

/-- A `modE` that only changes `index` is shape-preserving. -/
theorem sameShape_modE_index (s : CacheState) (id : Nat) (ix : Int) :
    SameShape s (modE s id (fun e => { e with index := ix })) := by
  refine ⟨rfl, rfl, rfl, rfl, modE_entries_length s id _, by
    rw [modE_heap], fun id2 => ?_⟩
  by_cases hid : id2 = id
  · subst hid
    by_cases hlen : id2 < s.entries.length
    · rw [getE_modE_self _ hlen]
      exact ⟨rfl, rfl, rfl, rfl, rfl, rfl⟩
    · rw [modE_oob _ (Nat.le_of_not_lt hlen)]
      exact eqExceptIndex_refl _
  · rw [getE_modE_ne _ hid]
    exact eqExceptIndex_refl _

/-! ### Lemmas about the heap primitives `hLess` and `hSwap` -/

theorem heapAt_eq_of_getElem? {s : CacheState} {p x : Nat}
    (h : s.heap[p]? = some x) : heapAt s p = x := by
  simp [heapAt, List.getD_eq_getElem?_getD, h]

theorem hLess_guard (s : CacheState) {i j : Int}
    (h : i = j ∨ i < 0 ∨ j < 0) : hLess s i j = some false := by
  simp [hLess, if_pos h]

theorem hLess_true_facts {s : CacheState} {i j : Int}
    (h : hLess s i j = some true) : 0 ≤ i ∧ 0 ≤ j ∧ i ≠ j := by
  by_cases hg : i = j ∨ i < 0 ∨ j < 0
  · rw [hLess_guard s hg] at h
    simp at h
  · push_neg at hg
    exact ⟨hg.2.1, hg.2.2, hg.1⟩

theorem hLess_isSome {s : CacheState} {i j : Int}
    (hi : 0 ≤ i) (hj : 0 ≤ j)
    (hi2 : i.toNat < s.heap.length) (hj2 : j.toNat < s.heap.length) :
    (hLess s i j).isSome := by
  by_cases hg : i = j ∨ i < 0 ∨ j < 0
  · rw [hLess_guard s hg]; rfl
  · simp only [hLess, if_neg hg]
    rw [List.getElem?_eq_getElem hi2, List.getElem?_eq_getElem hj2]
    rfl

theorem hSwap_guard (s : CacheState) {i j : Int}
    (h : i = j ∨ i < 0 ∨ j < 0) : hSwap s i j = some s := by
  simp [hSwap, if_pos h]

/-- Helper: replacing the heap with a permutation preserves the shape. -/
theorem sameShape_setHeap (s : CacheState) (hh : List Nat)
    (hperm : hh.Perm s.heap) : SameShape s { s with heap := hh } :=
  ⟨rfl, rfl, rfl, rfl, rfl, hperm, fun _ => eqExceptIndex_refl _⟩

/-- A successful unguarded `hSwap` implies both indices are in range. -/
theorem hSwap_some_inv {s s1 : CacheState} {i j : Int}
    (h : hSwap s i j = some s1) (hg : ¬(i = j ∨ i < 0 ∨ j < 0)) :
    ∃ a b, s.heap[i.toNat]? = some a ∧ s.heap[j.toNat]? = some b := by
  by_cases hil : i.toNat < s.heap.length
  · by_cases hjl : j.toNat < s.heap.length
    · exact ⟨_, _, List.getElem?_eq_getElem hil, List.getElem?_eq_getElem hjl⟩
    · exfalso
      unfold hSwap at h
      rw [if_neg hg, List.getElem?_eq_getElem hil,
        List.getElem?_eq_none (Nat.le_of_not_lt hjl)] at h
      simp at h
  · exfalso
    unfold hSwap at h
    rw [if_neg hg, List.getElem?_eq_none (Nat.le_of_not_lt hil)] at h
    simp at h

theorem hSwap_sameShape {s s1 : CacheState} {i j : Int}
    (h : hSwap s i j = some s1) : SameShape s s1 := by
  by_cases hg : i = j ∨ i < 0 ∨ j < 0
  · rw [hSwap_guard s hg] at h
    injection h with h
    exact h ▸ sameShape_refl s
  · obtain ⟨a, b, ha, hb⟩ := hSwap_some_inv h hg
    unfold hSwap at h
    rw [if_neg hg, ha, hb] at h
    simp only [Option.some.injEq] at h
    subst h
    have hne : i.toNat ≠ j.toNat := by
      push_neg at hg
      omega
    have p1 := sameShape_setHeap s _ (swap_perm hne ha hb)
    exact sameShape_trans p1 (sameShape_trans (sameShape_modE_index _ b i)
      (sameShape_modE_index _ a j))

theorem hSwap_isSome {s : CacheState} {i j : Int}
    (hi : 0 ≤ i) (hj : 0 ≤ j)
    (hi2 : i.toNat < s.heap.length) (hj2 : j.toNat < s.heap.length) :
    (hSwap s i j).isSome := by
  by_cases hg : i = j ∨ i < 0 ∨ j < 0
  · rw [hSwap_guard s hg]; rfl
  · simp only [hSwap, if_neg hg]
    rw [List.getElem?_eq_getElem hi2, List.getElem?_eq_getElem hj2]
    rfl

/-- `hSwap` with both indices below `m` does not move heap slots at or
above `m`. -/
theorem hSwap_agree {s s1 : CacheState} {i j : Int} {m : Nat}
    (h : hSwap s i j = some s1) (hi : i < (m : Int)) (hj : j < (m : Int)) :
    ∀ p : Nat, m ≤ p → s1.heap[p]? = s.heap[p]? := by
  by_cases hg : i = j ∨ i < 0 ∨ j < 0
  · rw [hSwap_guard s hg] at h
    injection h with h
    subst h
    intro p _
    rfl
  · obtain ⟨a, b, ha, hb⟩ := hSwap_some_inv h hg
    unfold hSwap at h
    rw [if_neg hg, ha, hb] at h
    simp only [Option.some.injEq] at h
    subst h
    intro p hp
    have h1 : i.toNat ≠ p := by omega
    have h2 : j.toNat ≠ p := by omega
    simp only [modE_heap]
    rw [List.getElem?_set_ne h2, List.getElem?_set_ne h1]

theorem heapAt_congr {s1 : CacheState} {l : List Nat} (p : Nat)
    (h : s1.heap = l) : heapAt s1 p = l.getD p 0 := by
  rw [heapAt, h]

/-- Full characterization of a successful non-trivial `hSwap`. -/
theorem hSwap_spec {s s1 : CacheState} {i j : Int} {a b : Nat}
    (hg : ¬(i = j ∨ i < 0 ∨ j < 0))
    (ha : s.heap[i.toNat]? = some a) (hb : s.heap[j.toNat]? = some b)
    (hav : a < s.entries.length) (hbv : b < s.entries.length)
    (hab : a ≠ b)
    (h : hSwap s i j = some s1) :
    s1.heap = (s.heap.set i.toNat b).set j.toNat a ∧
    getE s1 a = { getE s a with index := j } ∧
    getE s1 b = { getE s b with index := i } ∧
    (∀ x, x ≠ a → x ≠ b → getE s1 x = getE s x) := by
  unfold hSwap at h
  rw [if_neg hg, ha, hb] at h
  simp only [Option.some.injEq] at h
  subst h
  refine ⟨by simp [modE_heap], ?_, ?_, ?_⟩
  · rw [getE_modE_self _ (by simpa [modE_entries_length] using hav),
      getE_modE_ne _ hab]
    rfl
  · rw [getE_modE_ne _ (fun hc => hab hc.symm),
      getE_modE_self _ (by simpa [modE_entries_length] using hbv)]
    rfl
  · intro x hxa hxb
    rw [getE_modE_ne _ hxa, getE_modE_ne _ hxb]
    rfl

/-- `hSwap` preserves distinctness of the heap members and the
back-reference invariant. -/
theorem hSwap_backref {s s1 : CacheState} {i j : Int}
    (hnd : s.heap.Nodup) (hv : ValidIds s) (hbr : Backref s)
    (h : hSwap s i j = some s1) : s1.heap.Nodup ∧ ValidIds s1 ∧ Backref s1 := by
  obtain ⟨_, _, _, _, hlen, hperm, _⟩ := hSwap_sameShape h
  refine ⟨hperm.nodup_iff.mpr hnd, fun id hid => hlen ▸
    hv id (hperm.mem_iff.mp hid), ?_⟩
  by_cases hg : i = j ∨ i < 0 ∨ j < 0
  · rw [hSwap_guard s hg] at h
    injection h with h
    subst h
    exact hbr
  · have hg2 := hg
    push_neg at hg2
    obtain ⟨hij, hi0, hj0⟩ := hg2
    obtain ⟨a, b, ha, hb⟩ := hSwap_some_inv h hg
    have hitjt : i.toNat ≠ j.toNat := by omega
    have hail : i.toNat < s.heap.length := (List.getElem?_eq_some.mp ha).1
    have hbjl : j.toNat < s.heap.length := (List.getElem?_eq_some.mp hb).1
    have hab : a ≠ b := fun hcon =>
      hitjt (List.getElem?_inj hail hnd (ha.trans (hcon ▸ hb).symm))
    have hav : a < s.entries.length := hv a (List.getElem?_mem ha)
    have hbv : b < s.entries.length := hv b (List.getElem?_mem hb)
    obtain ⟨hh, hga, hgb, hgo⟩ := hSwap_spec hg ha hb hav hbv hab h
    intro p hp
    have hplen : p < s.heap.length := hperm.length_eq ▸ hp
    by_cases hpj : p = j.toNat
    · have h1 : heapAt s1 p = a := by
        rw [heapAt_congr p hh, List.getD_eq_getElem?_getD, hpj,
          List.getElem?_set_self (by simpa using hpj ▸ hplen)]
        rfl
      rw [h1, hga]
      show j = (p : Int)
      omega
    · by_cases hpi : p = i.toNat
      · have h1 : heapAt s1 p = b := by
          rw [heapAt_congr p hh, List.getD_eq_getElem?_getD, hpi,
            List.getElem?_set_ne (fun hc => hitjt hc.symm),
            List.getElem?_set_self (hpi ▸ hplen)]
          rfl
        rw [h1, hgb]
        show i = (p : Int)
        omega
      · have hx : s.heap[p]? = some (s.heap[p]) :=
          List.getElem?_eq_getElem hplen
        have h1 : heapAt s1 p = s.heap[p] := by
          rw [heapAt_congr p hh, List.getD_eq_getElem?_getD,
            List.getElem?_set_ne (fun hc => hpj hc.symm),
            List.getElem?_set_ne (fun hc => hpi hc.symm), hx]
          rfl
        have hxa : s.heap[p] ≠ a := fun hcon =>
          hpi (List.getElem?_inj hplen hnd (hx.trans (hcon ▸ ha).symm))
        have hxb : s.heap[p] ≠ b := fun hcon =>
          hpj (List.getElem?_inj hplen hnd (hx.trans (hcon ▸ hb).symm))
        rw [h1, hgo _ hxa hxb, ← heapAt_eq_of_getElem? hx]
        exact hbr p hplen

/-! ### Lemmas about the `up` and `down` loops -/

/-- Go's truncating division agrees with `Nat` division on non-negative
operands. -/
theorem tdiv2_of_nonneg {a : Int} (h : 0 ≤ a) :
    a.tdiv 2 = ((a.toNat / 2 : Nat) : Int) := by
  obtain ⟨m, rfl⟩ := Int.eq_ofNat_of_zero_le h
  rfl

/-- The parent index of a non-root node is a smaller non-negative index. -/
theorem parent_facts {j : Int} (hj : 1 ≤ j) :
    0 ≤ (j - 1).tdiv 2 ∧ (j - 1).tdiv 2 < j := by
  rw [tdiv2_of_nonneg (by omega)]
  omega

/-- The root is its own parent (the loop exit of `up` at the root). -/
theorem parent_zero : ((0 : Int) - 1).tdiv 2 = 0 := by decide

theorem upGo_sameShape {fuel : Nat} {s s1 : CacheState} {j : Int}
    (h : upGo fuel s j = some s1) : SameShape s s1 := by
  induction fuel generalizing s j with
  | zero => simp [upGo] at h
  | succ f ih =>
    unfold upGo at h
    by_cases hij : (j - 1).tdiv 2 = j
    · rw [if_pos hij] at h
      injection h with h
      exact h ▸ sameShape_refl s
    · rw [if_neg hij] at h
      cases hL : hLess s j ((j - 1).tdiv 2) with
      | none => rw [hL, Option.none_bind] at h; exact absurd h (by simp)
      | some b =>
        rw [hL, Option.some_bind] at h
        cases b with
        | false =>
          rw [if_neg Bool.false_ne_true] at h
          injection h with h
          exact h ▸ sameShape_refl s
        | true =>
          rw [if_pos rfl] at h
          cases hS : hSwap s ((j - 1).tdiv 2) j with
          | none => rw [hS, Option.none_bind] at h; exact absurd h (by simp)
          | some s2 =>
            rw [hS, Option.some_bind] at h
            exact sameShape_trans (hSwap_sameShape hS) (ih h)

theorem upGo_isSome {fuel : Nat} {s : CacheState} {j : Int}
    (hin : 0 ≤ j → j.toNat < s.heap.length) (hf : j.toNat < fuel) :
    (upGo fuel s j).isSome := by
  induction fuel generalizing s j with
  | zero => omega
  | succ f ih =>
    unfold upGo
    by_cases hij : (j - 1).tdiv 2 = j
    · rw [if_pos hij]; rfl
    · rw [if_neg hij]
      by_cases hj0 : j < 0
      · rw [hLess_guard s (Or.inr (Or.inl hj0))]; rfl
      · push_neg at hj0
        have hj1 : 1 ≤ j := by
          by_contra hlt
          have hz : j = 0 := by omega
          subst hz
          exact hij parent_zero
        obtain ⟨hp0, hpj⟩ := parent_facts hj1
        have hjl : j.toNat < s.heap.length := hin hj0
        have hpl : ((j - 1).tdiv 2).toNat < s.heap.length := by omega
        have hLsome := hLess_isSome hj0 hp0 hjl hpl
        cases hL : hLess s j ((j - 1).tdiv 2) with
        | none => exact absurd (hL ▸ hLsome) (by simp)
        | some b =>
          rw [Option.some_bind]
          cases b with
          | false => rw [if_neg Bool.false_ne_true]; rfl
          | true =>
            rw [if_pos rfl]
            have hSsome := hSwap_isSome hp0 hj0 hpl hjl
            cases hS : hSwap s ((j - 1).tdiv 2) j with
            | none => exact absurd (hS ▸ hSsome) (by simp)
            | some s2 =>
              rw [Option.some_bind]
              have hlen := (hSwap_sameShape hS).2.2.2.2.2.1.length_eq
              exact ih (fun hq => by omega) (by omega)

theorem upGo_agree {fuel : Nat} {s s1 : CacheState} {j : Int} {m : Nat}
    (h : upGo fuel s j = some s1) (hjm : j < (m : Int)) :
    ∀ p, m ≤ p → s1.heap[p]? = s.heap[p]? := by
  induction fuel generalizing s j with
  | zero => simp [upGo] at h
  | succ f ih =>
    unfold upGo at h
    by_cases hij : (j - 1).tdiv 2 = j
    · rw [if_pos hij] at h
      injection h with h
      subst h
      intro p _
      rfl
    · rw [if_neg hij] at h
      cases hL : hLess s j ((j - 1).tdiv 2) with
      | none => rw [hL, Option.none_bind] at h; exact absurd h (by simp)
      | some b =>
        rw [hL, Option.some_bind] at h
        cases b with
        | false =>
          rw [if_neg Bool.false_ne_true] at h
          injection h with h
          subst h
          intro p _
          rfl
        | true =>
          rw [if_pos rfl] at h
          obtain ⟨hj0, hp0, hjp⟩ := hLess_true_facts hL
          have hj1 : 1 ≤ j := by
            by_contra hlt
            have hz : j = 0 := by omega
            subst hz
            exact hij parent_zero
          obtain ⟨_, hplt⟩ := parent_facts hj1
          cases hS : hSwap s ((j - 1).tdiv 2) j with
          | none => rw [hS, Option.none_bind] at h; exact absurd h (by simp)
          | some s2 =>
            rw [hS, Option.some_bind] at h
            intro p hp
            rw [ih h (by omega) p hp]
            exact hSwap_agree hS (by omega) hjm p hp

theorem upGo_backref {fuel : Nat} {s s1 : CacheState} {j : Int}
    (hnd : s.heap.Nodup) (hv : ValidIds s) (hbr : Backref s)
    (h : upGo fuel s j = some s1) :
    s1.heap.Nodup ∧ ValidIds s1 ∧ Backref s1 := by
  induction fuel generalizing s j with
  | zero => simp [upGo] at h
  | succ f ih =>
    unfold upGo at h
    by_cases hij : (j - 1).tdiv 2 = j
    · rw [if_pos hij] at h
      injection h with h
      exact h ▸ ⟨hnd, hv, hbr⟩
    · rw [if_neg hij] at h
      cases hL : hLess s j ((j - 1).tdiv 2) with
      | none => rw [hL, Option.none_bind] at h; exact absurd h (by simp)
      | some b =>
        rw [hL, Option.some_bind] at h
        cases b with
        | false =>
          rw [if_neg Bool.false_ne_true] at h
          injection h with h
          exact h ▸ ⟨hnd, hv, hbr⟩
        | true =>
          rw [if_pos rfl] at h
          cases hS : hSwap s ((j - 1).tdiv 2) j with
          | none => rw [hS, Option.none_bind] at h; exact absurd h (by simp)
          | some s2 =>
            rw [hS, Option.some_bind] at h
            obtain ⟨hnd2, hv2, hbr2⟩ := hSwap_backref hnd hv hbr hS
            exact ih hnd2 hv2 hbr2 h

theorem downGo_sameShape {fuel : Nat} {s s1 : CacheState} {i n iF : Int}
    (h : downGo fuel s i n = some (s1, iF)) : SameShape s s1 := by
  induction fuel generalizing s i with
  | zero => simp [downGo] at h
  | succ f ih =>
    unfold downGo at h
    by_cases hbk : n ≤ 2 * i + 1 ∨ 2 * i + 1 < 0
    · rw [if_pos hbk] at h
      injection h with h
      injection h with h1 h2
      exact h1 ▸ sameShape_refl s
    · rw [if_neg hbk] at h
      cases hB : (if 2 * i + 2 < n then hLess s (2 * i + 2) (2 * i + 1)
          else some false) with
      | none => rw [hB, Option.none_bind] at h; exact absurd h (by simp)
      | some b =>
        rw [hB, Option.some_bind] at h
        cases hL : hLess s (if b then 2 * i + 2 else 2 * i + 1) i with
        | none => rw [hL, Option.none_bind] at h; exact absurd h (by simp)
        | some c =>
          rw [hL, Option.some_bind] at h
          cases c with
          | false =>
            rw [if_neg Bool.false_ne_true] at h
            injection h with h
            injection h with h1 h2
            exact h1 ▸ sameShape_refl s
          | true =>
            rw [if_pos rfl] at h
            cases hS : hSwap s i (if b then 2 * i + 2 else 2 * i + 1) with
            | none => rw [hS, Option.none_bind] at h; exact absurd h (by simp)
            | some s2 =>
              rw [hS, Option.some_bind] at h
              exact sameShape_trans (hSwap_sameShape hS) (ih h)

theorem downGo_isSome {fuel : Nat} {s : CacheState} {i n : Int}
    (hn : n ≤ (s.heap.length : Int)) (hf : (n - i).toNat < fuel) :
    (downGo fuel s i n).isSome := by
  induction fuel generalizing s i with
  | zero => omega
  | succ f ih =>
    unfold downGo
    by_cases hbk : n ≤ 2 * i + 1 ∨ 2 * i + 1 < 0
    · rw [if_pos hbk]; rfl
    · rw [if_neg hbk]
      push_neg at hbk
      obtain ⟨hj1n, hj10⟩ := hbk
      have hi0 : 0 ≤ i := by omega
      have hBsome : (if 2 * i + 2 < n then hLess s (2 * i + 2) (2 * i + 1)
          else some false).isSome := by
        by_cases hc : 2 * i + 2 < n
        · rw [if_pos hc]
          exact hLess_isSome (by omega) (by omega) (by omega) (by omega)
        · rw [if_neg hc]; rfl
      cases hB : (if 2 * i + 2 < n then hLess s (2 * i + 2) (2 * i + 1)
          else some false) with
      | none => exact absurd (hB ▸ hBsome) (by simp)
      | some b =>
        rw [Option.some_bind]
        have hjlt : (if b then 2 * i + 2 else 2 * i + 1) < n := by
          cases hb2 : b with
          | false => simpa [hb2] using hj1n
          | true =>
            subst hb2
            by_cases hc : 2 * i + 2 < n
            · simpa using hc
            · rw [if_neg hc] at hB
              simp at hB
        have hj0 : 0 ≤ (if b then 2 * i + 2 else 2 * i + 1) := by
          cases b <;> simp <;> omega
        have hLsome : (hLess s (if b then 2 * i + 2 else 2 * i + 1) i).isSome :=
          hLess_isSome hj0 hi0 (by omega) (by omega)
        cases hL : hLess s (if b then 2 * i + 2 else 2 * i + 1) i with
        | none => exact absurd (hL ▸ hLsome) (by simp)
        | some c =>
          rw [Option.some_bind]
          cases c with
          | false => rw [if_neg Bool.false_ne_true]; rfl
          | true =>
            rw [if_pos rfl]
            have hSsome : (hSwap s i (if b then 2 * i + 2 else 2 * i + 1)).isSome :=
              hSwap_isSome hi0 hj0 (by omega) (by omega)
            cases hS : hSwap s i (if b then 2 * i + 2 else 2 * i + 1) with
            | none => exact absurd (hS ▸ hSsome) (by simp)
            | some s2 =>
              rw [Option.some_bind]
              have hlen := (hSwap_sameShape hS).2.2.2.2.2.1.length_eq
              refine ih (by omega) ?_
              have hij : i < (if b then 2 * i + 2 else 2 * i + 1) := by
                cases b <;> simp <;> omega
              omega

theorem downGo_agree {fuel : Nat} {s s1 : CacheState} {i n iF : Int} {m : Nat}
    (h : downGo fuel s i n = some (s1, iF)) (hnm : n ≤ (m : Int)) :
    ∀ p, m ≤ p → s1.heap[p]? = s.heap[p]? := by
  induction fuel generalizing s i with
  | zero => simp [downGo] at h
  | succ f ih =>
    unfold downGo at h
    by_cases hbk : n ≤ 2 * i + 1 ∨ 2 * i + 1 < 0
    · rw [if_pos hbk] at h
      injection h with h
      injection h with h1 h2
      subst h1
      intro p _
      rfl
    · rw [if_neg hbk] at h
      push_neg at hbk
      obtain ⟨hj1n, hj10⟩ := hbk
      have hi0 : 0 ≤ i := by omega
      cases hB : (if 2 * i + 2 < n then hLess s (2 * i + 2) (2 * i + 1)
          else some false) with
      | none => rw [hB, Option.none_bind] at h; exact absurd h (by simp)
      | some b =>
        rw [hB, Option.some_bind] at h
        have hjlt : (if b then 2 * i + 2 else 2 * i + 1) < n := by
          cases hb2 : b with
          | false => simpa [hb2] using hj1n
          | true =>
            subst hb2
            by_cases hc : 2 * i + 2 < n
            · simpa using hc
            · rw [if_neg hc] at hB
              simp at hB
        cases hL : hLess s (if b then 2 * i + 2 else 2 * i + 1) i with
        | none => rw [hL, Option.none_bind] at h; exact absurd h (by simp)
        | some c =>
          rw [hL, Option.some_bind] at h
          cases c with
          | false =>
            rw [if_neg Bool.false_ne_true] at h
            injection h with h
            injection h with h1 h2
            subst h1
            intro p _
            rfl
          | true =>
            rw [if_pos rfl] at h
            cases hS : hSwap s i (if b then 2 * i + 2 else 2 * i + 1) with
            | none => rw [hS, Option.none_bind] at h; exact absurd h (by simp)
            | some s2 =>
              rw [hS, Option.some_bind] at h
              intro p hp
              rw [ih h p hp]
              exact hSwap_agree hS (by omega) (by omega) p hp

theorem downGo_backref {fuel : Nat} {s s1 : CacheState} {i n iF : Int}
    (hnd : s.heap.Nodup) (hv : ValidIds s) (hbr : Backref s)
    (h : downGo fuel s i n = some (s1, iF)) :
    s1.heap.Nodup ∧ ValidIds s1 ∧ Backref s1 := by
  induction fuel generalizing s i with
  | zero => simp [downGo] at h
  | succ f ih =>
    unfold downGo at h
    by_cases hbk : n ≤ 2 * i + 1 ∨ 2 * i + 1 < 0
    · rw [if_pos hbk] at h
      injection h with h
      injection h with h1 h2
      exact h1 ▸ ⟨hnd, hv, hbr⟩
    · rw [if_neg hbk] at h
      cases hB : (if 2 * i + 2 < n then hLess s (2 * i + 2) (2 * i + 1)
          else some false) with
      | none => rw [hB, Option.none_bind] at h; exact absurd h (by simp)
      | some b =>
        rw [hB, Option.some_bind] at h
        cases hL : hLess s (if b then 2 * i + 2 else 2 * i + 1) i with
        | none => rw [hL, Option.none_bind] at h; exact absurd h (by simp)
        | some c =>
          rw [hL, Option.some_bind] at h
          cases c with
          | false =>
            rw [if_neg Bool.false_ne_true] at h
            injection h with h
            injection h with h1 h2
            exact h1 ▸ ⟨hnd, hv, hbr⟩
          | true =>
            rw [if_pos rfl] at h
            cases hS : hSwap s i (if b then 2 * i + 2 else 2 * i + 1) with
            | none => rw [hS, Option.none_bind] at h; exact absurd h (by simp)
            | some s2 =>
              rw [hS, Option.some_bind] at h
              obtain ⟨hnd2, hv2, hbr2⟩ := hSwap_backref hnd hv hbr hS
              exact ih hnd2 hv2 hbr2 h

/-! ### Wrapper lemmas for `up` and `down` -/

theorem up_isSome {s : CacheState} {j : Int}
    (hin : 0 ≤ j → j.toNat < s.heap.length) : (up s j).isSome :=
  upGo_isSome hin (by omega)

theorem up_sameShape {s s1 : CacheState} {j : Int}
    (h : up s j = some s1) : SameShape s s1 :=
  upGo_sameShape h

theorem up_agree {s s1 : CacheState} {j : Int} {m : Nat}
    (h : up s j = some s1) (hjm : j < (m : Int)) :
    ∀ p, m ≤ p → s1.heap[p]? = s.heap[p]? :=
  upGo_agree h hjm

theorem up_backref {s s1 : CacheState} {j : Int}
    (hnd : s.heap.Nodup) (hv : ValidIds s) (hbr : Backref s)
    (h : up s j = some s1) : s1.heap.Nodup ∧ ValidIds s1 ∧ Backref s1 :=
  upGo_backref hnd hv hbr h

theorem down_isSome {s : CacheState} {i n : Int}
    (hn : n ≤ (s.heap.length : Int)) : (down s i n).isSome := by
  unfold down
  have h := downGo_isSome hn (show (n - i).toNat < (n - i).toNat + 1 by omega)
    (s := s) (i := i)
  cases hd : downGo ((n - i).toNat + 1) s i n with
  | none => exact absurd (hd ▸ h) (by simp)
  | some r => rw [Option.map_some']; rfl

theorem down_eq_some {s s1 : CacheState} {i n : Int} {mv : Bool}
    (h : down s i n = some (s1, mv)) :
    ∃ iF, downGo ((n - i).toNat + 1) s i n = some (s1, iF) ∧
      mv = decide (i < iF) := by
  unfold down at h
  cases hd : downGo ((n - i).toNat + 1) s i n with
  | none => rw [hd, Option.map_none'] at h; exact absurd h (by simp)
  | some r =>
    rw [hd, Option.map_some'] at h
    injection h with h
    injection h with h1 h2
    exact ⟨r.2, by rw [← h1], h2.symm⟩

theorem down_sameShape {s s1 : CacheState} {i n : Int} {mv : Bool}
    (h : down s i n = some (s1, mv)) : SameShape s s1 := by
  obtain ⟨iF, hd, _⟩ := down_eq_some h
  exact downGo_sameShape hd

theorem down_agree {s s1 : CacheState} {i n : Int} {mv : Bool} {m : Nat}
    (h : down s i n = some (s1, mv)) (hnm : n ≤ (m : Int)) :
    ∀ p, m ≤ p → s1.heap[p]? = s.heap[p]? := by
  obtain ⟨iF, hd, _⟩ := down_eq_some h
  exact downGo_agree hd hnm

theorem down_backref {s s1 : CacheState} {i n : Int} {mv : Bool}
    (hnd : s.heap.Nodup) (hv : ValidIds s) (hbr : Backref s)
    (h : down s i n = some (s1, mv)) :
    s1.heap.Nodup ∧ ValidIds s1 ∧ Backref s1 := by
  obtain ⟨iF, hd, _⟩ := down_eq_some h
  exact downGo_backref hnd hv hbr hd

/-! ### `hPopRaw` and helpers -/

theorem concat_of_getLast? {l : List Nat} {x : Nat} (h : l.getLast? = some x) :
    l = l.dropLast ++ [x] := by
  induction l using List.reverseRecOn with
  | nil => simp at h
  | append_singleton t a ih =>
    rw [List.getLast?_concat] at h
    injection h with h
    rw [h, List.dropLast_concat]

theorem hPopRaw_last {s : CacheState} {x : Nat} (h : s.heap.getLast? = some x) :
    hPopRaw s = ({ modE s x (fun e => { e with index := -1 }) with
      heap := s.heap.dropLast }, some x) := by
  unfold hPopRaw
  rw [h]

/-- Counting argument: dropping the last slot (which holds `x`) of a
permutation of `l` yields a permutation of `l.erase x`. -/
theorem perm_dropLast_erase {l2 l : List Nat} {x : Nat}
    (hperm : l2.Perm l) (hlast : l2.getLast? = some x) (hx : x ∈ l) :
    l2.dropLast.Perm (l.erase x) := by
  refine List.perm_iff_count.mpr (fun y => ?_)
  have hc2 : l2.count y = l.count y := hperm.count_eq y
  have hdec := concat_of_getLast? hlast
  have hsingle : List.count y [x] = if x = y then 1 else 0 := by
    by_cases hxy : x = y
    · simp [hxy]
    · have h2 : ¬ y = x := fun hc => hxy hc.symm
      simp [hxy, h2]
  have hcc : l2.count y = l2.dropLast.count y + (if x = y then 1 else 0) := by
    conv_lhs => rw [hdec]
    rw [List.count_append, hsingle]
  have hce : (l.erase x).count y = l.count y - (if x = y then 1 else 0) := by
    rw [List.count_erase]
    simp only [beq_iff_eq]
  have hxl : 1 ≤ l.count x := List.count_pos_iff_mem.mpr hx
  by_cases hxy : x = y
  · subst hxy
    rw [if_pos rfl] at hcc hce
    omega
  · rw [if_neg hxy] at hcc hce
    omega

/-! ### Specifications of the four `container/heap` operations -/

theorem mem_heap_pos {s : CacheState} {id : Nat} (h : id ∈ s.heap) :
    ∃ t, t < s.heap.length ∧ s.heap[t]? = some id := by
  obtain ⟨t, ht, he⟩ := List.mem_iff_getElem.mp h
  exact ⟨t, ht, by rw [List.getElem?_eq_getElem ht, he]⟩

/-- `heap.Remove` at an occupied slot `t` removes exactly the id stored
there: it succeeds, returns that id, keeps every cache component except
the heap (which loses one occurrence of the id) and the `index` fields. -/
theorem heapRemove_spec {s : CacheState} {t x : Nat}
    (hnd : s.heap.Nodup) (hv : ValidIds s) (hbr : Backref s)
    (ht : s.heap[t]? = some x) :
    ∃ s3, heapRemove s (t : Int) = some (s3, some x) ∧
      s3.cap = s.cap ∧ s3.ttl = s.ttl ∧ s3.noReset = s.noReset ∧
      s3.items = s.items ∧ s3.entries.length = s.entries.length ∧
      s3.heap.Perm (s.heap.erase x) ∧
      (∀ id, EqExceptIndex (getE s3 id) (getE s id)) := by
  have htlen : t < s.heap.length := (List.getElem?_eq_some.mp ht).1
  have hxmem : x ∈ s.heap := List.getElem?_mem ht
  have hlen1 : 1 ≤ s.heap.length := by omega
  by_cases hteq : (s.heap.length : Int) - 1 = (t : Int)
  · have hlast : s.heap.getLast? = some x := by
      rw [List.getLast?_eq_getElem?]
      have he : s.heap.length - 1 = t := by omega
      rw [he]
      exact ht
    refine ⟨{ modE s x (fun e => { e with index := -1 }) with
      heap := s.heap.dropLast }, ?_, ?_, ?_, ?_, ?_, ?_, ?_, ?_⟩
    · unfold heapRemove
      rw [if_pos hteq, hPopRaw_last hlast]
    · rfl
    · rfl
    · rfl
    · rfl
    · simp [modE]
    · exact perm_dropLast_erase (List.Perm.refl _) hlast hxmem
    · intro id
      by_cases hid : id = x
      · subst hid
        by_cases hlt : id < s.entries.length
        · have he := getE_modE_self (s := s)
            (fun e => { e with index := -1 }) hlt
          exact (show EqExceptIndex
            (getE ({ modE s id (fun e => { e with index := -1 }) with
              heap := s.heap.dropLast }) id) (getE s id) from by
            rw [show getE ({ modE s id (fun e => { e with index := -1 }) with
              heap := s.heap.dropLast }) id = getE (modE s id
              (fun e => { e with index := -1 })) id from rfl, he]
            exact ⟨rfl, rfl, rfl, rfl, rfl, rfl⟩)
        · rw [show getE ({ modE s id (fun e => { e with index := -1 }) with
            heap := s.heap.dropLast }) id = getE (modE s id
            (fun e => { e with index := -1 })) id from rfl,
            modE_oob _ (Nat.le_of_not_lt hlt)]
          exact eqExceptIndex_refl _
      · rw [show getE ({ modE s x (fun e => { e with index := -1 }) with
          heap := s.heap.dropLast }) id = getE (modE s x
          (fun e => { e with index := -1 })) id from rfl,
          getE_modE_ne _ hid]
        exact eqExceptIndex_refl _
  · -- swap the victim to the last slot, sift, then pop
    have hg : ¬((t : Int) = (s.heap.length : Int) - 1 ∨ (t : Int) < 0 ∨
        (s.heap.length : Int) - 1 < 0) := by
      push_neg
      refine ⟨fun hc => hteq hc.symm, by omega, by omega⟩
    have hSsome : (hSwap s (t : Int) ((s.heap.length : Int) - 1)).isSome :=
      hSwap_isSome (by omega) (by omega) (by omega) (by omega)
    cases hS : hSwap s (t : Int) ((s.heap.length : Int) - 1) with
    | none => exact absurd (hS ▸ hSsome) (by simp)
    | some s1 =>
      obtain ⟨sh1c, sh1t, sh1r, sh1i, sh1e, sh1p, sh1f⟩ := hSwap_sameShape hS
      have hb : s.heap[((s.heap.length : Int) - 1).toNat]? =
          some (s.heap[s.heap.length - 1]) := by
        have hc : ((s.heap.length : Int) - 1).toNat = s.heap.length - 1 := by
          omega
        rw [hc]
        exact List.getElem?_eq_getElem (by omega)
      have htne : t ≠ s.heap.length - 1 := by omega
      have hab : x ≠ s.heap[s.heap.length - 1] := by
        intro hcon
        refine htne (List.getElem?_inj htlen hnd ?_)
        rw [ht, List.getElem?_eq_getElem (show s.heap.length - 1 <
          s.heap.length by omega), hcon]
      have hxv : x < s.entries.length := hv x hxmem
      have hbv : s.heap[s.heap.length - 1] < s.entries.length :=
        hv _ (List.getElem_mem _)
      have ht2 : s.heap[((t : Int)).toNat]? = some x := by
        have hc : ((t : Int)).toNat = t := by omega
        rw [hc]
        exact ht
      obtain ⟨hh1, hga1, hgb1, hgo1⟩ := hSwap_spec hg ht2 hb hxv hbv hab hS
      have hxn1 : s1.heap[s.heap.length - 1]? = some x := by
        rw [hh1]
        have hc : ((s.heap.length : Int) - 1).toNat = s.heap.length - 1 := by
          omega
        rw [hc]
        exact List.getElem?_set_self (by simpa using by omega)
      have hDsome : (down s1 (t : Int) ((s.heap.length : Int) - 1)).isSome :=
        down_isSome (by rw [sh1p.length_eq]; omega)
      cases hD : down s1 (t : Int) ((s.heap.length : Int) - 1) with
      | none => exact absurd (hD ▸ hDsome) (by simp)
      | some r =>
        obtain ⟨s2, mv⟩ := r
        obtain ⟨sh2c, sh2t, sh2r, sh2i, sh2e, sh2p, sh2f⟩ := down_sameShape hD
        have hxn2 : s2.heap[s.heap.length - 1]? = some x := by
          rw [down_agree (m := s.heap.length - 1) hD (by omega)
            (s.heap.length - 1) (by omega)]
          exact hxn1
        have hlen2 : s2.heap.length = s.heap.length :=
          sh2p.length_eq.trans sh1p.length_eq
        have hlast2 : s2.heap.getLast? = some x := by
          rw [List.getLast?_eq_getElem?, hlen2]
          exact hxn2
        have hperm2 : s2.heap.Perm s.heap := sh2p.trans sh1p
        cases mv with
        | true =>
          refine ⟨{ modE s2 x (fun e => { e with index := -1 }) with
            heap := s2.heap.dropLast }, ?_, ?_, ?_, ?_, ?_, ?_, ?_, ?_⟩
          · unfold heapRemove
            rw [if_neg hteq, hS, Option.some_bind, hD, Option.some_bind,
              if_pos rfl, hPopRaw_last hlast2]
          · simp [modE, sh2c, sh1c]
          · simp [modE, sh2t, sh1t]
          · simp [modE, sh2r, sh1r]
          · simp [modE, sh2i, sh1i]
          · simp [modE, sh2e, sh1e]
          · exact perm_dropLast_erase hperm2 hlast2 hxmem
          · intro id
            refine eqExceptIndex_trans ?_ (eqExceptIndex_trans (sh2f id) (sh1f id))
            by_cases hid : id = x
            · subst hid
              by_cases hlt : id < s2.entries.length
              · rw [show getE ({ modE s2 id (fun e =>
                  { e with index := -1 }) with
                  heap := s2.heap.dropLast }) id = getE (modE s2 id
                  (fun e => { e with index := -1 })) id from rfl,
                  getE_modE_self _ hlt]
                exact ⟨rfl, rfl, rfl, rfl, rfl, rfl⟩
              · rw [show getE ({ modE s2 id (fun e =>
                  { e with index := -1 }) with
                  heap := s2.heap.dropLast }) id = getE (modE s2 id
                  (fun e => { e with index := -1 })) id from rfl,
                  modE_oob _ (Nat.le_of_not_lt hlt)]
                exact eqExceptIndex_refl _
            · rw [show getE ({ modE s2 x (fun e =>
                { e with index := -1 }) with
                heap := s2.heap.dropLast }) id = getE (modE s2 x
                (fun e => { e with index := -1 })) id from rfl,
                getE_modE_ne _ hid]
              exact eqExceptIndex_refl _
        | false =>
          have hUsome : (up s2 (t : Int)).isSome :=
            up_isSome (s := s2) (fun _ => by omega)
          cases hU : up s2 (t : Int) with
          | none => exact absurd (hU ▸ hUsome) (by simp)
          | some s3 =>
            obtain ⟨sh3c, sh3t, sh3r, sh3i, sh3e, sh3p, sh3f⟩ :=
              up_sameShape hU
            have hxn3 : s3.heap[s.heap.length - 1]? = some x := by
              rw [up_agree (m := s.heap.length - 1) hU (by omega)
                (s.heap.length - 1) (by omega)]
              exact hxn2
            have hlen3 : s3.heap.length = s.heap.length :=
              sh3p.length_eq.trans hlen2
            have hlast3 : s3.heap.getLast? = some x := by
              rw [List.getLast?_eq_getElem?, hlen3]
              exact hxn3
            have hperm3 : s3.heap.Perm s.heap := sh3p.trans hperm2
            refine ⟨{ modE s3 x (fun e => { e with index := -1 }) with
              heap := s3.heap.dropLast }, ?_, ?_, ?_, ?_, ?_, ?_, ?_, ?_⟩
            · unfold heapRemove
              rw [if_neg hteq, hS, Option.some_bind, hD, Option.some_bind,
                if_neg Bool.false_ne_true, hU, Option.map_some',
                hPopRaw_last hlast3]
            · simp [modE, sh3c, sh2c, sh1c]
            · simp [modE, sh3t, sh2t, sh1t]
            · simp [modE, sh3r, sh2r, sh1r]
            · simp [modE, sh3i, sh2i, sh1i]
            · simp [modE, sh3e, sh2e, sh1e]
            · exact perm_dropLast_erase hperm3 hlast3 hxmem
            · intro id
              refine eqExceptIndex_trans ?_ (eqExceptIndex_trans (sh3f id)
                (eqExceptIndex_trans (sh2f id) (sh1f id)))
              by_cases hid : id = x
              · subst hid
                by_cases hlt : id < s3.entries.length
                · rw [show getE ({ modE s3 id (fun e =>
                    { e with index := -1 }) with
                    heap := s3.heap.dropLast }) id = getE (modE s3 id
                    (fun e => { e with index := -1 })) id from rfl,
                    getE_modE_self _ hlt]
                  exact ⟨rfl, rfl, rfl, rfl, rfl, rfl⟩
                · rw [show getE ({ modE s3 id (fun e =>
                    { e with index := -1 }) with
                    heap := s3.heap.dropLast }) id = getE (modE s3 id
                    (fun e => { e with index := -1 })) id from rfl,
                    modE_oob _ (Nat.le_of_not_lt hlt)]
                  exact eqExceptIndex_refl _
              · rw [show getE ({ modE s3 x (fun e =>
                  { e with index := -1 }) with
                  heap := s3.heap.dropLast }) id = getE (modE s3 x
                  (fun e => { e with index := -1 })) id from rfl,
                  getE_modE_ne _ hid]
                exact eqExceptIndex_refl _

/-- `heap.Push` always succeeds and appends the id, changing nothing else
but `index` fields. -/
theorem heapPush_spec (s : CacheState) (id : Nat) :
    ∃ s1, heapPush s id = some s1 ∧
      s1.cap = s.cap ∧ s1.ttl = s.ttl ∧ s1.noReset = s.noReset ∧
      s1.items = s.items ∧ s1.entries.length = s.entries.length ∧
      s1.heap.Perm (s.heap ++ [id]) ∧
      (∀ id2, EqExceptIndex (getE s1 id2) (getE s id2)) := by
  have hlen0 : (hPushRaw s id).heap = s.heap ++ [id] := rfl
  have hUsome : (up (hPushRaw s id)
      (((hPushRaw s id).heap.length : Int) - 1)).isSome := by
    refine up_isSome (fun hq => ?_)
    rw [hlen0]
    simp only [List.length_append, List.length_singleton]
    omega
  cases hU : up (hPushRaw s id) (((hPushRaw s id).heap.length : Int) - 1) with
  | none => exact absurd (hU ▸ hUsome) (by simp)
  | some s1 =>
    obtain ⟨shc, sht, shr, shi, she, shp, shf⟩ := up_sameShape hU
    refine ⟨s1, hU, shc, sht, shr, shi, ?_, hlen0 ▸ shp, fun id2 => ?_⟩
    · rw [she]
      simp [hPushRaw, modE]
    · refine eqExceptIndex_trans (shf id2) ?_
      show EqExceptIndex (getE (hPushRaw s id) id2) (getE s id2)
      by_cases hid : id2 = id
      · subst hid
        by_cases hlt : id2 < s.entries.length
        · rw [show getE (hPushRaw s id2) id2 = getE (modE s id2 (fun e =>
            { e with index := (s.heap.length : Int) })) id2 from rfl,
            getE_modE_self _ hlt]
          exact ⟨rfl, rfl, rfl, rfl, rfl, rfl⟩
        · rw [show getE (hPushRaw s id2) id2 = getE (modE s id2 (fun e =>
            { e with index := (s.heap.length : Int) })) id2 from rfl,
            modE_oob _ (Nat.le_of_not_lt hlt)]
          exact eqExceptIndex_refl _
      · rw [show getE (hPushRaw s id) id2 = getE (modE s id (fun e =>
          { e with index := (s.heap.length : Int) })) id2 from rfl,
          getE_modE_ne _ hid]
        exact eqExceptIndex_refl _

/-- `heap.Fix` at an occupied slot succeeds and preserves shape and the
index invariants. -/
theorem heapFix_spec {s : CacheState} (t : Nat)
    (hnd : s.heap.Nodup) (hv : ValidIds s) (hbr : Backref s)
    (ht : t < s.heap.length) :
    ∃ s1, heapFix s (t : Int) = some s1 ∧ SameShape s s1 ∧
      s1.heap.Nodup ∧ ValidIds s1 ∧ Backref s1 := by
  have hDsome : (down s (t : Int) (s.heap.length : Int)).isSome :=
    down_isSome (by omega)
  cases hD : down s (t : Int) (s.heap.length : Int) with
  | none => exact absurd (hD ▸ hDsome) (by simp)
  | some r =>
    obtain ⟨s2, mv⟩ := r
    have hsh2 := down_sameShape hD
    obtain ⟨hnd2, hv2, hbr2⟩ := down_backref hnd hv hbr hD
    cases mv with
    | true =>
      refine ⟨s2, ?_, hsh2, hnd2, hv2, hbr2⟩
      unfold heapFix
      rw [hD, Option.some_bind, if_pos rfl]
    | false =>
      have hUsome : (up s2 (t : Int)).isSome := by
        refine up_isSome (s := s2) (fun hq => ?_)
        have := hsh2.2.2.2.2.2.1.length_eq
        omega
      cases hU : up s2 (t : Int) with
      | none => exact absurd (hU ▸ hUsome) (by simp)
      | some s3 =>
        obtain ⟨hnd3, hv3, hbr3⟩ := up_backref hnd2 hv2 hbr2 hU
        refine ⟨s3, ?_, sameShape_trans hsh2 (up_sameShape hU), hnd3, hv3, hbr3⟩
        unfold heapFix
        rw [hD, Option.some_bind, if_neg Bool.false_ne_true, hU]

/-! ### Arena-append lemmas and `modE` invariant preservation -/

theorem getE_append_new (s : CacheState) (e : Entry) :
    getE { s with entries := s.entries ++ [e] } s.entries.length = e := by
  simp [getE, List.getD_eq_getElem?_getD, List.getElem?_concat_length]

theorem getE_append_old (s : CacheState) (e : Entry) {id2 : Nat}
    (h : id2 ≠ s.entries.length) :
    getE { s with entries := s.entries ++ [e] } id2 = getE s id2 := by
  by_cases hlt : id2 < s.entries.length
  · simp [getE, List.getD_eq_getElem?_getD, List.getElem?_append_left hlt]
  · have h1 : (s.entries ++ [e])[id2]? = none := by
      apply List.getElem?_eq_none
      simp
      omega
    have h2 : s.entries[id2]? = none := by
      apply List.getElem?_eq_none
      omega
    simp [getE, List.getD_eq_getElem?_getD, h1, h2]

/-- A `modE` whose update preserves `index` preserves the back-reference
invariant (and the heap itself). -/
theorem backref_modE {s : CacheState} {id : Nat} {f : Entry → Entry}
    (hbr : Backref s) (hf : ∀ e, (f e).index = e.index) :
    Backref (modE s id f) := by
  intro p hp
  have hp2 : p < s.heap.length := by simpa [modE_heap] using hp
  have hat : heapAt (modE s id f) p = heapAt s p := by
    rw [heapAt, heapAt, modE_heap]
  rw [hat]
  by_cases hid : heapAt s p = id
  · rw [hid]
    by_cases hlt : id < s.entries.length
    · rw [getE_modE_self _ hlt, hf]
      rw [← hid]
      exact hbr p hp2
    · rw [modE_oob _ (Nat.le_of_not_lt hlt)]
      rw [← hid]
      exact hbr p hp2
  · rw [getE_modE_ne _ hid]
    exact hbr p hp2

/-- The position of a heap member recorded in its `index` field. -/
theorem backref_pos {s : CacheState} (hbr : Backref s) {id : Nat}
    (hmem : id ∈ s.heap) :
    ∃ p, p < s.heap.length ∧ s.heap[p]? = some id ∧
      (getE s id).index = (p : Int) := by
  obtain ⟨p, hp, he⟩ := mem_heap_pos hmem
  refine ⟨p, hp, he, ?_⟩
  rw [← heapAt_eq_of_getElem? he]
  exact hbr p hp

/-! ### Specifications of the internal cache operations -/

/-- `insertEntry` always succeeds: it allocates a fresh entry with
deadline `now + ttl` (timer scheduled there iff `ttl > 0`), pushes it on
the heap and binds it in the key index. -/
theorem insertEntry_spec (s : CacheState) (k v now : Nat) :
    ∃ s2, insertEntry s k v now = some s2 ∧
      s2.cap = s.cap ∧ s2.ttl = s.ttl ∧ s2.noReset = s.noReset ∧
      s2.items = itemsSet s.items k s.entries.length ∧
      s2.entries.length = s.entries.length + 1 ∧
      s2.heap.Perm (s.heap ++ [s.entries.length]) ∧
      (getE s2 s.entries.length).key = k ∧
      (getE s2 s.entries.length).value = v ∧
      (getE s2 s.entries.length).expires = now + s.ttl ∧
      (getE s2 s.entries.length).timerSet = decide (0 < s.ttl) ∧
      (getE s2 s.entries.length).timerPending = decide (0 < s.ttl) ∧
      (getE s2 s.entries.length).timerAt = now + s.ttl ∧
      (∀ id2, id2 ≠ s.entries.length →
        EqExceptIndex (getE s2 id2) (getE s id2)) := by
  obtain ⟨s1, hP, shc, sht, shr, shi, she, shp, shf⟩ :=
    heapPush_spec { s with entries := s.entries ++ [
      { key := k, value := v, index := 0, expires := now + s.ttl,
        timerSet := decide (0 < s.ttl), timerPending := decide (0 < s.ttl),
        timerAt := now + s.ttl }] } s.entries.length
  refine ⟨{ s1 with items := itemsSet s1.items k s.entries.length }, ?_,
    shc, sht, shr, ?_, ?_, shp, ?_, ?_, ?_, ?_, ?_, ?_, ?_⟩
  · show (heapPush { s with entries := s.entries ++ [_] }
      s.entries.length).map _ = _
    rw [hP, Option.map_some']
  · rw [shi]
  · rw [she]
    simp
  · exact (shf s.entries.length).1.trans
      (congrArg Entry.key (getE_append_new s _))
  · exact (shf s.entries.length).2.1.trans
      (congrArg Entry.value (getE_append_new s _))
  · exact (shf s.entries.length).2.2.1.trans
      (congrArg Entry.expires (getE_append_new s _))
  · exact (shf s.entries.length).2.2.2.1.trans
      (congrArg Entry.timerSet (getE_append_new s _))
  · exact (shf s.entries.length).2.2.2.2.1.trans
      (congrArg Entry.timerPending (getE_append_new s _))
  · exact (shf s.entries.length).2.2.2.2.2.trans
      (congrArg Entry.timerAt (getE_append_new s _))
  · intro id2 hne
    exact eqExceptIndex_trans (shf id2) (getE_append_old s _ hne ▸ eqExceptIndex_refl _)

/-- `removeEntry` on a live entry (a heap member) succeeds: it removes
the id from the heap, stops its timer when one exists, and deletes its
key from the key index. -/
theorem removeEntry_spec {s : CacheState} {id : Nat}
    (hnd : s.heap.Nodup) (hv : ValidIds s) (hbr : Backref s)
    (hmem : id ∈ s.heap) :
    ∃ s3, removeEntry s id = some s3 ∧
      s3.cap = s.cap ∧ s3.ttl = s.ttl ∧ s3.noReset = s.noReset ∧
      s3.items = itemsErase s.items (getE s id).key ∧
      s3.entries.length = s.entries.length ∧
      s3.heap.Perm (s.heap.erase id) ∧
      (∀ id2, id2 ≠ id → EqExceptIndex (getE s3 id2) (getE s id2)) ∧
      (getE s3 id).key = (getE s id).key ∧
      (getE s3 id).value = (getE s id).value ∧
      (getE s3 id).expires = (getE s id).expires ∧
      (getE s3 id).timerSet = (getE s id).timerSet ∧
      (getE s3 id).timerAt = (getE s id).timerAt ∧
      (getE s3 id).timerPending =
        (if (getE s id).timerSet then false else (getE s id).timerPending) := by
  obtain ⟨t, htl, ht, hidx⟩ := backref_pos hbr hmem
  obtain ⟨s1, hR, rc, rt, rr, ri, re, rp, rf⟩ := heapRemove_spec hnd hv hbr ht
  have hidv : id < s.entries.length := hv id hmem
  have hts1 : (getE s1 id).timerSet = (getE s id).timerSet := (rf id).2.2.2.1
  by_cases hset : (getE s id).timerSet
  · refine ⟨{ modE s1 id (fun e => { e with timerPending := false }) with
      items := itemsErase s1.items (getE (modE s1 id (fun e =>
        { e with timerPending := false })) id).key }, ?_, rc, rt, rr,
      ?_, ?_, ?_, ?_, ?_, ?_, ?_, ?_, ?_, ?_⟩
    · unfold removeEntry
      rw [hidx, if_pos (by omega), hR, Option.map_some', Option.map_some']
      simp only [hts1, hset, if_true]
      rfl
    · show itemsErase s1.items (getE (modE s1 id (fun e =>
        { e with timerPending := false })) id).key =
        itemsErase s.items (getE s id).key
      rw [getE_modE_self _ (by omega), ri]
      exact congrArg (itemsErase s.items) (rf id).1
    · show (modE s1 id (fun e =>
        { e with timerPending := false })).entries.length = s.entries.length
      rw [modE_entries_length, re]
    · show (modE s1 id (fun e =>
        { e with timerPending := false })).heap.Perm (s.heap.erase id)
      rw [modE_heap]
      exact rp
    · intro id2 hne
      show EqExceptIndex (getE (modE s1 id (fun e =>
        { e with timerPending := false })) id2) (getE s id2)
      rw [getE_modE_ne _ hne]
      exact rf id2
    · show (getE (modE s1 id (fun e =>
        { e with timerPending := false })) id).key = (getE s id).key
      rw [getE_modE_self _ (by omega)]
      exact (rf id).1
    · show (getE (modE s1 id (fun e =>
        { e with timerPending := false })) id).value = (getE s id).value
      rw [getE_modE_self _ (by omega)]
      exact (rf id).2.1
    · show (getE (modE s1 id (fun e =>
        { e with timerPending := false })) id).expires = (getE s id).expires
      rw [getE_modE_self _ (by omega)]
      exact (rf id).2.2.1
    · show (getE (modE s1 id (fun e =>
        { e with timerPending := false })) id).timerSet = (getE s id).timerSet
      rw [getE_modE_self _ (by omega)]
      exact hts1
    · show (getE (modE s1 id (fun e =>
        { e with timerPending := false })) id).timerAt = (getE s id).timerAt
      rw [getE_modE_self _ (by omega)]
      exact (rf id).2.2.2.2.2
    · show (getE (modE s1 id (fun e =>
        { e with timerPending := false })) id).timerPending =
        (if (getE s id).timerSet then false else (getE s id).timerPending)
      rw [getE_modE_self _ (by omega), if_pos hset]
  · refine ⟨{ s1 with items := itemsErase s1.items (getE s1 id).key }, ?_,
      rc, rt, rr, ?_, re, rp, fun id2 _ => rf id2, (rf id).1, (rf id).2.1,
      (rf id).2.2.1, hts1, (rf id).2.2.2.2.2, ?_⟩
    · unfold removeEntry
      rw [hidx, if_pos (by omega), hR, Option.map_some', Option.map_some']
      simp only [hts1]
      rw [if_neg hset]
    · show itemsErase s1.items (getE s1 id).key =
        itemsErase s.items (getE s id).key
      rw [ri]
      exact congrArg (itemsErase s.items) (rf id).1
    · rw [if_neg hset]
      exact (rf id).2.2.2.2.1

/-- `resetEntryTTL` on a live entry (heap member, with a timer when the
ttl is positive) succeeds: it reschedules the timer when `ttl > 0`, sets
the deadline to `now + ttl`, and re-fixes the heap, preserving everything
else. -/
theorem resetEntryTTL_spec {s : CacheState} {id : Nat}
    (hnd : s.heap.Nodup) (hv : ValidIds s) (hbr : Backref s)
    (hmem : id ∈ s.heap)
    (hts : 0 < s.ttl → (getE s id).timerSet = true)
    (now : Nat) :
    ∃ s1, resetEntryTTL s id now = some s1 ∧
      s1.cap = s.cap ∧ s1.ttl = s.ttl ∧ s1.noReset = s.noReset ∧
      s1.items = s.items ∧ s1.entries.length = s.entries.length ∧
      s1.heap.Perm s.heap ∧ s1.heap.Nodup ∧ ValidIds s1 ∧ Backref s1 ∧
      id ∈ s1.heap ∧
      (∀ id2, id2 ≠ id → EqExceptIndex (getE s1 id2) (getE s id2)) ∧
      (getE s1 id).key = (getE s id).key ∧
      (getE s1 id).value = (getE s id).value ∧
      (getE s1 id).timerSet = (getE s id).timerSet ∧
      (getE s1 id).expires = now + s.ttl ∧
      (getE s1 id).timerPending =
        (if 0 < s.ttl then true else (getE s id).timerPending) ∧
      (getE s1 id).timerAt =
        (if 0 < s.ttl then now + s.ttl else (getE s id).timerAt) := by
  have hidv : id < s.entries.length := hv id hmem
  obtain ⟨t, htl, ht, hidx⟩ := backref_pos hbr hmem
  by_cases h0 : 0 < s.ttl
  · have hset := hts h0
    have hvB : ValidIds (modE s id (fun e =>
        { e with timerPending := true, timerAt := now + s.ttl })) := by
      intro id2 hm
      rw [modE_entries_length]
      exact hv id2 (by rw [modE_heap] at hm; exact hm)
    have hndB : (modE s id (fun e =>
        { e with timerPending := true, timerAt := now + s.ttl })).heap.Nodup := by
      rw [modE_heap]
      exact hnd
    have hbrB : Backref (modE s id (fun e =>
        { e with timerPending := true, timerAt := now + s.ttl })) :=
      backref_modE hbr (fun e => rfl)
    have hvC : ValidIds (modE (modE s id (fun e =>
        { e with timerPending := true, timerAt := now + s.ttl })) id (fun e =>
        { e with expires := now + (modE s id (fun e =>
          { e with timerPending := true, timerAt := now + s.ttl })).ttl })) := by
      intro id2 hm
      rw [modE_entries_length, modE_entries_length]
      exact hv id2 (by rw [modE_heap, modE_heap] at hm; exact hm)
    have hndC : (modE (modE s id (fun e =>
        { e with timerPending := true, timerAt := now + s.ttl })) id (fun e =>
        { e with expires := now + (modE s id (fun e =>
          { e with timerPending := true, timerAt := now + s.ttl })).ttl })).heap.Nodup := by
      rw [modE_heap, modE_heap]
      exact hnd
    have hbrC : Backref (modE (modE s id (fun e =>
        { e with timerPending := true, timerAt := now + s.ttl })) id (fun e =>
        { e with expires := now + (modE s id (fun e =>
          { e with timerPending := true, timerAt := now + s.ttl })).ttl })) :=
      backref_modE hbrB (fun e => rfl)
    have htC : t < (modE (modE s id (fun e =>
        { e with timerPending := true, timerAt := now + s.ttl })) id (fun e =>
        { e with expires := now + (modE s id (fun e =>
          { e with timerPending := true, timerAt := now + s.ttl })).ttl })).heap.length := by
      rw [modE_heap, modE_heap]
      exact htl
    obtain ⟨s1, hF, ⟨fc, ftl, fr, fi, fe, fp, ff⟩, nd1, v1, br1⟩ :=
      heapFix_spec t hndC hvC hbrC htC
    have hgB : getE (modE s id (fun e =>
        { e with timerPending := true, timerAt := now + s.ttl })) id =
        { getE s id with timerPending := true, timerAt := now + s.ttl } :=
      getE_modE_self _ hidv
    have hgC : getE (modE (modE s id (fun e =>
        { e with timerPending := true, timerAt := now + s.ttl })) id (fun e =>
        { e with expires := now + (modE s id (fun e =>
          { e with timerPending := true, timerAt := now + s.ttl })).ttl })) id =
        { getE s id with
          timerPending := true
          timerAt := now + s.ttl
          expires := now + s.ttl } := by
      rw [getE_modE_self _ (by rw [modE_entries_length]; exact hidv), hgB]
      rfl
    have hPOS : (getE (modE (modE s id (fun e =>
        { e with timerPending := true, timerAt := now + s.ttl })) id (fun e =>
        { e with expires := now + (modE s id (fun e =>
          { e with timerPending := true, timerAt := now + s.ttl })).ttl })) id).index =
        (t : Int) := by
      rw [hgC]
      exact hidx
    refine ⟨s1, ?_, fc, ftl, fr, fi, ?_, fp, nd1, v1, br1, ?_, ?_, ?_, ?_,
      ?_, ?_, ?_, ?_⟩
    · unfold resetEntryTTL
      rw [if_pos h0, if_pos hset, Option.some_bind, hPOS]
      exact hF
    · rw [fe, modE_entries_length, modE_entries_length]
    · exact fp.mem_iff.mpr (by rw [modE_heap, modE_heap]; exact hmem)
    · intro id2 hne
      refine eqExceptIndex_trans (ff id2) ?_
      show EqExceptIndex (getE (modE (modE s id _) id _) id2) (getE s id2)
      rw [getE_modE_ne _ hne, getE_modE_ne _ hne]
      exact eqExceptIndex_refl _
    · rw [(ff id).1, hgC]
    · rw [(ff id).2.1, hgC]
    · rw [(ff id).2.2.2.1, hgC]
    · rw [(ff id).2.2.1, hgC]
    · rw [(ff id).2.2.2.2.1, hgC, if_pos h0]
    · rw [(ff id).2.2.2.2.2, hgC, if_pos h0]
  · have hvC : ValidIds (modE s id (fun e =>
        { e with expires := now + s.ttl })) := by
      intro id2 hm
      rw [modE_entries_length]
      exact hv id2 (by rw [modE_heap] at hm; exact hm)
    have hndC : (modE s id (fun e =>
        { e with expires := now + s.ttl })).heap.Nodup := by
      rw [modE_heap]
      exact hnd
    have hbrC : Backref (modE s id (fun e =>
        { e with expires := now + s.ttl })) :=
      backref_modE hbr (fun e => rfl)
    have htC : t < (modE s id (fun e =>
        { e with expires := now + s.ttl })).heap.length := by
      rw [modE_heap]
      exact htl
    obtain ⟨s1, hF, ⟨fc, ftl, fr, fi, fe, fp, ff⟩, nd1, v1, br1⟩ :=
      heapFix_spec t hndC hvC hbrC htC
    have hgC : getE (modE s id (fun e =>
        { e with expires := now + s.ttl })) id =
        { getE s id with expires := now + s.ttl } :=
      getE_modE_self _ hidv
    have hPOS : (getE (modE s id (fun e =>
        { e with expires := now + s.ttl })) id).index = (t : Int) := by
      rw [hgC]
      exact hidx
    refine ⟨s1, ?_, fc, ftl, fr, fi, ?_, fp, nd1, v1, br1, ?_, ?_, ?_, ?_,
      ?_, ?_, ?_, ?_⟩
    · unfold resetEntryTTL
      rw [if_neg h0, Option.some_bind, hPOS]
      exact hF
    · rw [fe, modE_entries_length]
    · exact fp.mem_iff.mpr (by rw [modE_heap]; exact hmem)
    · intro id2 hne
      refine eqExceptIndex_trans (ff id2) ?_
      show EqExceptIndex (getE (modE s id _) id2) (getE s id2)
      rw [getE_modE_ne _ hne]
      exact eqExceptIndex_refl _
    · rw [(ff id).1, hgC]
    · rw [(ff id).2.1, hgC]
    · rw [(ff id).2.2.2.1, hgC]
    · rw [(ff id).2.2.1, hgC]
    · rw [(ff id).2.2.2.2.1, hgC, if_neg h0]
    · rw [(ff id).2.2.2.2.2, hgC, if_neg h0]

/-! ### Bridge lemmas for the public operations -/

theorem setOp_absent {s : CacheState} {k : Nat} (v now : Nat)
    (hAbs : itemsGet s.items k = none) :
    setOp s k v now =
      if s.heap.length = s.cap then
        s.heap.head?.bind (fun rootId =>
          (removeEntry s rootId).bind (fun s1 =>
            (insertEntry s1 k v now).map (fun s2 => (s2, true))))
      else (insertEntry s k v now).map (fun s2 => (s2, false)) := by
  unfold setOp
  rw [hAbs]

theorem setOp_present {s : CacheState} {k id : Nat} (v now : Nat)
    (hGet : itemsGet s.items k = some id) :
    setOp s k v now = (updateEntry s id v now).map (fun s1 => (s1, false)) := by
  unfold setOp
  rw [hGet]

theorem getOp_absent {s : CacheState} {k : Nat} (now : Nat)
    (hAbs : itemsGet s.items k = none) :
    getOp s k now = some ((none, false), s) := by
  unfold getOp
  rw [hAbs]

theorem getOp_present {s : CacheState} {k id : Nat} (now : Nat)
    (hGet : itemsGet s.items k = some id) :
    getOp s k now =
      if s.ttl = 0 ∨ now < (getE s id).expires then
        if s.noReset then some ((some (getE s id).value, true), s)
        else
          (resetEntryTTL s id now).map (fun s1 =>
            ((some (getE s1 id).value, true), s1))
      else some ((none, false), s) := by
  unfold getOp
  rw [hGet]

theorem delOp_absent {s : CacheState} {k : Nat}
    (hAbs : itemsGet s.items k = none) : delOp s k = some (s, false) := by
  unfold delOp
  rw [hAbs]

theorem delOp_present {s : CacheState} {k id : Nat}
    (hGet : itemsGet s.items k = some id) :
    delOp s k = (removeEntry s id).map (fun s1 => (s1, true)) := by
  unfold delOp
  rw [hGet]

/-- The heap root has the minimal deadline among all heap slots. -/
theorem heapOrder_root_min {s : CacheState} (hho : HeapOrder s) :
    ∀ q, q < s.heap.length →
      (getE s (heapAt s 0)).expires ≤ (getE s (heapAt s q)).expires := by
  intro q
  induction q using Nat.strong_induction_on with
  | _ q ih =>
    intro hq
    by_cases hq0 : q = 0
    · subst hq0
      exact le_refl _
    · exact le_trans (ih ((q - 1) / 2) (by omega) (by omega)) (hho q hq hq0)

/-! ### Claim theorems -/

/-- C1: for every well-formed cache state holding exactly `capacity`
entries, `Set` with an absent key evicts the heap root — an entry whose
deadline is minimal among all current members — returns `evicted = true`,
leaves `Len()` at capacity, removes the evicted entry from both indices,
and binds the new key; the choice depends only on deadlines (the heap
order), not on access recency. -/
theorem set_at_capacity_evicts_heap_min (s : CacheState) (k v now : Nat)
    (hInv : Inv s) (hFull : s.items.length = s.cap)
    (hAbs : itemsGet s.items k = none) :
    ∃ s2, setOp s k v now = some (s2, true) ∧
      lenOp s2 = s.cap ∧
      (∀ id ∈ s.heap,
        (getE s (heapAt s 0)).expires ≤ (getE s id).expires) ∧
      heapAt s 0 ∉ s2.heap ∧
      itemsGet s2.items ((getE s (heapAt s 0)).key) = none ∧
      itemsGet s2.items k = some s.entries.length := by
  obtain ⟨hcap, hlen, hle, hnd, hv, hbr, hho, hknd, hio, hhk, hto, htp⟩ := hInv
  have hheq : s.heap.length = s.cap := by omega
  have h0len : 0 < s.heap.length := by omega
  have h0 : s.heap[0]? = some (heapAt s 0) := by
    simp [heapAt, List.getD_eq_getElem?_getD, List.getElem?_eq_getElem h0len]
  have hmem : heapAt s 0 ∈ s.heap := List.getElem?_mem h0
  have hhead : s.heap.head? = some (heapAt s 0) := by
    rw [List.head?_eq_getElem?]
    exact h0
  obtain ⟨s1, hRem, rc, rt, rr, ri, re, rp, rf, _⟩ :=
    removeEntry_spec hnd hv hbr hmem
  have hKB := hhk _ hmem
  have hkne : k ≠ (getE s (heapAt s 0)).key := by
    intro hc
    rw [hc] at hAbs
    rw [hAbs] at hKB
    cases hKB
  have habs1 : itemsGet s1.items k = none := by
    rw [ri, itemsGet_itemsErase_ne hkne hknd]
    exact hAbs
  obtain ⟨s2, hIns, ic, it, ir, ii, ie, ip, ikey, ival, iexp, its, itp, ita,
    iold⟩ := insertEntry_spec s1 k v now
  have hs1len : s1.items.length + 1 = s.items.length := by
    rw [ri]
    exact itemsErase_length (itemsGet_mem_keys hKB)
  have hs2len : s2.items.length = s1.items.length + 1 := by
    rw [ii]
    exact itemsSet_length_of_absent _ habs1
  refine ⟨s2, ?_, ?_, ?_, ?_, ?_, ?_⟩
  · rw [setOp_absent v now hAbs, if_pos hheq, hhead, Option.some_bind, hRem,
      Option.some_bind, hIns, Option.map_some']
  · show s2.items.length = s.cap
    omega
  · intro id hid
    obtain ⟨q, hq, hgetq⟩ := mem_heap_pos hid
    rw [← heapAt_eq_of_getElem? hgetq]
    exact heapOrder_root_min hho q hq
  · intro hcon
    rcases List.mem_append.mp ((List.Perm.mem_iff ip).mp hcon) with hin1 | hnew
    · have hc1 : s.heap.count (heapAt s 0) = 1 :=
        List.count_eq_one_of_mem hnd hmem
      have hc0 : s1.heap.count (heapAt s 0) = 0 := by
        rw [rp.count_eq, List.count_erase_self]
        omega
      have := List.count_pos_iff_mem.mpr hin1
      omega
    · have hroot : heapAt s 0 < s.entries.length := hv _ hmem
      have : heapAt s 0 = s.entries.length := by
        rw [← re]
        simpa using hnew
      omega
  · rw [ii, itemsGet_itemsSet_ne _ (fun hc => hkne hc.symm), ri,
      itemsGet_itemsErase_self hknd]
  · rw [ii, itemsGet_itemsSet_self, re]

/-- Concrete instance discharging C1's hypotheses: a full one-slot cache
evicts its only (hence earliest-deadline) entry. -/
theorem set_at_capacity_evicts_heap_min_witness :
    ∃ s2, setOp c1WitState 1 11 2 = some (s2, true) ∧
      lenOp s2 = c1WitState.cap ∧
      (∀ id ∈ c1WitState.heap,
        (getE c1WitState (heapAt c1WitState 0)).expires ≤
          (getE c1WitState id).expires) ∧
      heapAt c1WitState 0 ∉ s2.heap ∧
      itemsGet s2.items ((getE c1WitState (heapAt c1WitState 0)).key) = none ∧
      itemsGet s2.items 1 = some c1WitState.entries.length :=
  set_at_capacity_evicts_heap_min c1WitState 1 11 2 (by decide) (by decide)
    (by decide)

/-! ### Hypothesis-free frame lemmas (used for reachability inductions) -/

theorem heapFix_sameShape {s s1 : CacheState} {i : Int}
    (h : heapFix s i = some s1) : SameShape s s1 := by
  unfold heapFix at h
  cases hD : down s i (s.heap.length : Int) with
  | none => rw [hD, Option.none_bind] at h; exact absurd h (by simp)
  | some r =>
    rw [hD, Option.some_bind] at h
    obtain ⟨s2, mv⟩ := r
    cases mv with
    | true =>
      rw [if_pos rfl] at h
      injection h with h
      exact h ▸ down_sameShape hD
    | false =>
      rw [if_neg Bool.false_ne_true] at h
      exact sameShape_trans (down_sameShape hD) (up_sameShape h)

/-- `hPopRaw` preserves everything except the heap and `index` fields. -/
theorem hPopRaw_frame (s : CacheState) :
    (hPopRaw s).1.cap = s.cap ∧ (hPopRaw s).1.ttl = s.ttl ∧
    (hPopRaw s).1.noReset = s.noReset ∧ (hPopRaw s).1.items = s.items ∧
    (hPopRaw s).1.entries.length = s.entries.length ∧
    (∀ id, EqExceptIndex (getE (hPopRaw s).1 id) (getE s id)) := by
  unfold hPopRaw
  cases hL : s.heap.getLast? with
  | none => exact ⟨rfl, rfl, rfl, rfl, rfl, fun id => eqExceptIndex_refl _⟩
  | some x =>
    refine ⟨rfl, rfl, rfl, rfl, by simp [modE], fun id => ?_⟩
    show EqExceptIndex (getE (modE s x (fun e => { e with index := -1 })) id)
      (getE s id)
    by_cases hid : id = x
    · subst hid
      by_cases hlt : id < s.entries.length
      · rw [getE_modE_self _ hlt]
        exact ⟨rfl, rfl, rfl, rfl, rfl, rfl⟩
      · rw [modE_oob _ (Nat.le_of_not_lt hlt)]
        exact eqExceptIndex_refl _
    · rw [getE_modE_ne _ hid]
      exact eqExceptIndex_refl _

theorem heapRemove_config {s s1 : CacheState} {i : Int} {r : Option Nat}
    (h : heapRemove s i = some (s1, r)) :
    s1.cap = s.cap ∧ s1.ttl = s.ttl ∧ s1.noReset = s.noReset ∧
    s1.items = s.items ∧ s1.entries.length = s.entries.length ∧
    (∀ id, EqExceptIndex (getE s1 id) (getE s id)) := by
  unfold heapRemove at h
  by_cases hcase : (s.heap.length : Int) - 1 = i
  · rw [if_pos hcase] at h
    injection h with h
    have hp := hPopRaw_frame s
    have h1 : (hPopRaw s).1 = s1 := congrArg Prod.fst h
    rw [h1] at hp
    exact hp
  · rw [if_neg hcase] at h
    cases hS : hSwap s i ((s.heap.length : Int) - 1) with
    | none => rw [hS, Option.none_bind] at h; exact absurd h (by simp)
    | some sA =>
      rw [hS, Option.some_bind] at h
      obtain ⟨c1, t1, r1, i1, e1, _, f1⟩ := hSwap_sameShape hS
      cases hD : down sA i ((s.heap.length : Int) - 1) with
      | none => rw [hD, Option.none_bind] at h; exact absurd h (by simp)
      | some rr =>
        rw [hD, Option.some_bind] at h
        obtain ⟨sB, mv⟩ := rr
        obtain ⟨c2, t2, r2, i2, e2, _, f2⟩ := down_sameShape hD
        cases mv with
        | true =>
          rw [if_pos rfl] at h
          injection h with h
          have hp := hPopRaw_frame sB
          have h1 : (hPopRaw sB).1 = s1 := congrArg Prod.fst h
          rw [h1] at hp
          obtain ⟨c3, t3, r3, i3, e3, f3⟩ := hp
          exact ⟨c3.trans (c2.trans c1), t3.trans (t2.trans t1),
            r3.trans (r2.trans r1), i3.trans (i2.trans i1),
            e3.trans (e2.trans e1),
            fun id => eqExceptIndex_trans (f3 id) (eqExceptIndex_trans (f2 id) (f1 id))⟩
        | false =>
          rw [if_neg Bool.false_ne_true] at h
          cases hU : up sB i with
          | none => rw [hU, Option.map_none'] at h; exact absurd h (by simp)
          | some sC =>
            rw [hU, Option.map_some'] at h
            injection h with h
            obtain ⟨c3, t3, r3, i3, e3, _, f3⟩ := up_sameShape hU
            have hp := hPopRaw_frame sC
            have h1 : (hPopRaw sC).1 = s1 := congrArg Prod.fst h
            rw [h1] at hp
            obtain ⟨c4, t4, r4, i4, e4, f4⟩ := hp
            exact ⟨c4.trans (c3.trans (c2.trans c1)),
              t4.trans (t3.trans (t2.trans t1)),
              r4.trans (r3.trans (r2.trans r1)),
              i4.trans (i3.trans (i2.trans i1)),
              e4.trans (e3.trans (e2.trans e1)),
              fun id => eqExceptIndex_trans (f4 id) (eqExceptIndex_trans (f3 id) (eqExceptIndex_trans (f2 id) (f1 id)))⟩

/-- `removeEntry` preserves configuration and timer ownership; it may
only erase a key, stop a timer and change heap positions. -/
theorem removeEntry_config {s s1 : CacheState} {id : Nat}
    (h : removeEntry s id = some s1) :
    s1.cap = s.cap ∧ s1.ttl = s.ttl ∧ s1.noReset = s.noReset ∧
    s1.entries.length = s.entries.length ∧
    (∀ id2, (getE s1 id2).key = (getE s id2).key ∧
      (getE s1 id2).value = (getE s id2).value ∧
      (getE s1 id2).expires = (getE s id2).expires ∧
      (getE s1 id2).timerSet = (getE s id2).timerSet ∧
      (getE s1 id2).timerAt = (getE s id2).timerAt ∧
      ((getE s1 id2).timerPending = (getE s id2).timerPending ∨
        (getE s1 id2).timerPending = false)) := by
  unfold removeEntry at h
  have hmain : ∀ sM : CacheState,
      sM.cap = s.cap → sM.ttl = s.ttl → sM.noReset = s.noReset →
      sM.entries.length = s.entries.length →
      (∀ id2, EqExceptIndex (getE sM id2) (getE s id2)) →
      ∀ sF : CacheState,
      (let s2 :=
        if (getE sM id).timerSet then
          modE sM id (fun e => { e with timerPending := false })
        else sM
      { s2 with items := itemsErase s2.items (getE s2 id).key }) = sF →
      sF.cap = s.cap ∧ sF.ttl = s.ttl ∧ sF.noReset = s.noReset ∧
      sF.entries.length = s.entries.length ∧
      (∀ id2, (getE sF id2).key = (getE s id2).key ∧
        (getE sF id2).value = (getE s id2).value ∧
        (getE sF id2).expires = (getE s id2).expires ∧
        (getE sF id2).timerSet = (getE s id2).timerSet ∧
        (getE sF id2).timerAt = (getE s id2).timerAt ∧
        ((getE sF id2).timerPending = (getE s id2).timerPending ∨
          (getE sF id2).timerPending = false)) := by
    intro sM hc ht hr he hf sF heq
    subst heq
    by_cases hset : (getE sM id).timerSet
    · rw [if_pos hset]
      refine ⟨hc, ht, hr, ?_, fun id2 => ?_⟩
      · show (modE sM id (fun e =>
          { e with timerPending := false })).entries.length = s.entries.length
        rw [modE_entries_length]
        exact he
      · obtain ⟨k1, v1, x1, ts1, tp1, ta1⟩ := hf id2
        show (getE (modE sM id (fun e => { e with timerPending := false })) id2).key = (getE s id2).key ∧
          (getE (modE sM id (fun e => { e with timerPending := false })) id2).value = (getE s id2).value ∧
          (getE (modE sM id (fun e => { e with timerPending := false })) id2).expires = (getE s id2).expires ∧
          (getE (modE sM id (fun e => { e with timerPending := false })) id2).timerSet = (getE s id2).timerSet ∧
          (getE (modE sM id (fun e => { e with timerPending := false })) id2).timerAt = (getE s id2).timerAt ∧
          ((getE (modE sM id (fun e => { e with timerPending := false })) id2).timerPending = (getE s id2).timerPending ∨
            (getE (modE sM id (fun e => { e with timerPending := false })) id2).timerPending = false)
        by_cases hid : id2 = id
        · subst hid
          by_cases hlt : id2 < sM.entries.length
          · rw [getE_modE_self _ hlt]
            exact ⟨k1, v1, x1, ts1, ta1, Or.inr rfl⟩
          · rw [modE_oob _ (Nat.le_of_not_lt hlt)]
            exact ⟨k1, v1, x1, ts1, ta1, Or.inl tp1⟩
        · rw [getE_modE_ne _ hid]
          exact ⟨k1, v1, x1, ts1, ta1, Or.inl tp1⟩
    · rw [if_neg hset]
      refine ⟨hc, ht, hr, he, fun id2 => ?_⟩
      obtain ⟨k1, v1, x1, ts1, tp1, ta1⟩ := hf id2
      exact ⟨k1, v1, x1, ts1, ta1, Or.inl tp1⟩
  by_cases hix : 0 ≤ (getE s id).index
  · rw [if_pos hix] at h
    cases hR : heapRemove s (getE s id).index with
    | none =>
      rw [hR, Option.map_none', Option.map_none'] at h
      exact absurd h (by simp)
    | some rr =>
      rw [hR, Option.map_some', Option.map_some'] at h
      injection h with h
      obtain ⟨c1, t1, r1, i1, e1, f1⟩ := heapRemove_config hR
      exact hmain rr.1 c1 t1 r1 e1 f1 s1 h
  · rw [if_neg hix, Option.map_some'] at h
    injection h with h
    exact hmain s rfl rfl rfl rfl (fun id2 => eqExceptIndex_refl _) s1 h

/-- `resetEntryTTL` preserves configuration, the key index and all entry
fields except `index`, `expires` and (when the ttl is positive) the timer
schedule of the touched entry. -/
theorem resetEntryTTL_config {s s1 : CacheState} {id now : Nat}
    (h : resetEntryTTL s id now = some s1) :
    s1.cap = s.cap ∧ s1.ttl = s.ttl ∧ s1.noReset = s.noReset ∧
    s1.items = s.items ∧ s1.entries.length = s.entries.length ∧
    (∀ id2, id2 ≠ id → EqExceptIndex (getE s1 id2) (getE s id2)) ∧
    (getE s1 id).key = (getE s id).key ∧
    (getE s1 id).value = (getE s id).value ∧
    (getE s1 id).timerSet = (getE s id).timerSet ∧
    ((getE s1 id).timerPending = (getE s id).timerPending ∨ 0 < s.ttl) := by
  unfold resetEntryTTL at h
  by_cases h0 : 0 < s.ttl
  · rw [if_pos h0] at h
    by_cases hset : (getE s id).timerSet
    · rw [if_pos hset, Option.some_bind] at h
      obtain ⟨fc, ftl, fr, fi, fe, _, ff⟩ := heapFix_sameShape h
      have hB : ∀ id2, id2 ≠ id →
          EqExceptIndex (getE (modE (modE s id (fun e =>
            { e with timerPending := true, timerAt := now + s.ttl })) id
            (fun e => { e with expires := now + (modE s id (fun e =>
              { e with timerPending := true, timerAt := now + s.ttl })).ttl }))
            id2) (getE s id2) := by
        intro id2 hne
        rw [getE_modE_ne _ hne, getE_modE_ne _ hne]
        exact eqExceptIndex_refl _
      refine ⟨fc, ftl, fr, fi, ?_, fun id2 hne => eqExceptIndex_trans (ff id2) (hB id2 hne),
        ?_, ?_, ?_, Or.inr h0⟩
      · rw [fe, modE_entries_length, modE_entries_length]
      · refine ((ff id).1).trans ?_
        by_cases hlt : id < s.entries.length
        · rw [getE_modE_self _ (by rw [modE_entries_length]; exact hlt),
            getE_modE_self _ hlt]
        · rw [modE_oob _ (by rw [modE_entries_length]; omega),
            modE_oob _ (by omega)]
      · refine ((ff id).2.1).trans ?_
        by_cases hlt : id < s.entries.length
        · rw [getE_modE_self _ (by rw [modE_entries_length]; exact hlt),
            getE_modE_self _ hlt]
        · rw [modE_oob _ (by rw [modE_entries_length]; omega),
            modE_oob _ (by omega)]
      · refine ((ff id).2.2.2.1).trans ?_
        by_cases hlt : id < s.entries.length
        · rw [getE_modE_self _ (by rw [modE_entries_length]; exact hlt),
            getE_modE_self _ hlt]
        · rw [modE_oob _ (by rw [modE_entries_length]; omega),
            modE_oob _ (by omega)]
    · rw [if_neg hset, Option.none_bind] at h
      exact absurd h (by simp)
  · rw [if_neg h0, Option.some_bind] at h
    obtain ⟨fc, ftl, fr, fi, fe, _, ff⟩ := heapFix_sameShape h
    have hB : ∀ id2, id2 ≠ id →
        EqExceptIndex (getE (modE s id (fun e =>
          { e with expires := now + s.ttl })) id2) (getE s id2) := by
      intro id2 hne
      rw [getE_modE_ne _ hne]
      exact eqExceptIndex_refl _
    refine ⟨fc, ftl, fr, fi, ?_, fun id2 hne => eqExceptIndex_trans (ff id2) (hB id2 hne),
      ?_, ?_, ?_, ?_⟩
    · rw [fe, modE_entries_length]
    · refine ((ff id).1).trans ?_
      by_cases hlt : id < s.entries.length
      · rw [getE_modE_self _ hlt]
      · rw [modE_oob _ (by omega)]
    · refine ((ff id).2.1).trans ?_
      by_cases hlt : id < s.entries.length
      · rw [getE_modE_self _ hlt]
      · rw [modE_oob _ (by omega)]
    · refine ((ff id).2.2.2.1).trans ?_
      by_cases hlt : id < s.entries.length
      · rw [getE_modE_self _ hlt]
      · rw [modE_oob _ (by omega)]
    · left
      refine ((ff id).2.2.2.2.1).trans ?_
      by_cases hlt : id < s.entries.length
      · rw [getE_modE_self _ hlt]
      · rw [modE_oob _ (by omega)]

/-- `updateEntry` composes a value write with `resetEntryTTL`. -/
theorem updateEntry_config {s s1 : CacheState} {id v now : Nat}
    (h : updateEntry s id v now = some s1) :
    s1.cap = s.cap ∧ s1.ttl = s.ttl ∧ s1.noReset = s.noReset ∧
    s1.items = s.items ∧ s1.entries.length = s.entries.length ∧
    (∀ id2, id2 ≠ id → EqExceptIndex (getE s1 id2) (getE s id2)) ∧
    (getE s1 id).key = (getE s id).key ∧
    (getE s1 id).timerSet = (getE s id).timerSet ∧
    ((getE s1 id).timerPending = (getE s id).timerPending ∨ 0 < s.ttl) := by
  unfold updateEntry at h
  obtain ⟨fc, ftl, fr, fi, fe, ff, fk, fv, fts, ftp⟩ := resetEntryTTL_config h
  by_cases hlt : id < s.entries.length
  · have hg : getE (modE s id (fun e => { e with value := v })) id =
        { getE s id with value := v } := getE_modE_self _ hlt
    refine ⟨fc, ftl, fr, fi, by rw [fe, modE_entries_length], ?_, ?_, ?_, ?_⟩
    · intro id2 hne
      refine eqExceptIndex_trans (ff id2 hne) ?_
      rw [getE_modE_ne _ hne]
      exact eqExceptIndex_refl _
    · rw [fk, hg]
    · rw [fts, hg]
    · rcases ftp with h1 | h1
      · left
        rw [h1, hg]
      · right
        exact h1
  · have heq := modE_oob (s := s) (fun e => { e with value := v })
      (Nat.le_of_not_lt hlt)
    rw [heq] at fc ftl fr fi fe ff fk fts ftp
    exact ⟨fc, ftl, fr, fi, fe, ff, fk, fts, ftp⟩

/-- The purge fold only invalidates `index` fields. -/
theorem purgeFold_frame : ∀ (l : List (Nat × Nat)) (acc : CacheState),
    (l.foldl (fun a pr => modE a pr.2 (fun e => { e with index := -1 }))
      acc).cap = acc.cap ∧
    (l.foldl (fun a pr => modE a pr.2 (fun e => { e with index := -1 }))
      acc).ttl = acc.ttl ∧
    (l.foldl (fun a pr => modE a pr.2 (fun e => { e with index := -1 }))
      acc).noReset = acc.noReset ∧
    (l.foldl (fun a pr => modE a pr.2 (fun e => { e with index := -1 }))
      acc).items = acc.items ∧
    (l.foldl (fun a pr => modE a pr.2 (fun e => { e with index := -1 }))
      acc).heap = acc.heap ∧
    (l.foldl (fun a pr => modE a pr.2 (fun e => { e with index := -1 }))
      acc).entries.length = acc.entries.length ∧
    (∀ id, EqExceptIndex (getE (l.foldl (fun a pr => modE a pr.2 (fun e =>
      { e with index := -1 })) acc) id) (getE acc id)) := by
  intro l
  induction l with
  | nil =>
    exact fun acc => ⟨rfl, rfl, rfl, rfl, rfl, rfl,
      fun id => eqExceptIndex_refl _⟩
  | cons p t ih =>
    intro acc
    obtain ⟨c1, t1, r1, i1, h1, e1, f1⟩ :=
      ih (modE acc p.2 (fun e => { e with index := -1 }))
    obtain ⟨c2, t2, r2, i2, e2, _, f2⟩ := sameShape_modE_index acc p.2 (-1)
    exact ⟨c1.trans c2, t1.trans t2, r1.trans r2, i1.trans i2,
      h1.trans (modE_heap acc p.2 _), e1.trans e2,
      fun id => eqExceptIndex_trans (f1 id) (f2 id)⟩

theorem purgeOp_config (s : CacheState) :
    (purgeOp s).cap = s.cap ∧ (purgeOp s).ttl = s.ttl ∧
    (purgeOp s).noReset = s.noReset ∧ (purgeOp s).items = [] ∧
    (purgeOp s).heap = [] ∧
    (purgeOp s).entries.length = s.entries.length ∧
    (∀ id, EqExceptIndex (getE (purgeOp s) id) (getE s id)) := by
  obtain ⟨c1, t1, r1, i1, h1, e1, f1⟩ := purgeFold_frame s.items s
  exact ⟨c1, t1, r1, rfl, rfl, e1, f1⟩

/-! ### Step-level frames -/

theorem timerFrame_refl (s : CacheState) : TimerFrame s s :=
  fun _ => ⟨Or.inl rfl, Or.inl rfl⟩

theorem timerFrame_comp {s s1 s2 : CacheState} (httl : s1.ttl = s.ttl)
    (h1 : TimerFrame s s1) (h2 : TimerFrame s1 s2) : TimerFrame s s2 := by
  intro id
  obtain ⟨a1, b1⟩ := h1 id
  obtain ⟨a2, b2⟩ := h2 id
  rw [httl] at a2 b2
  constructor
  · rcases a2 with h | h | h
    · rw [h]
      exact a1
    · exact Or.inr (Or.inl h)
    · exact Or.inr (Or.inr h)
  · rcases b2 with h | h | h
    · rw [h]
      exact b1
    · exact Or.inr (Or.inl h)
    · exact Or.inr (Or.inr h)

theorem removeEntry_frame {s s1 : CacheState} {id : Nat}
    (h : removeEntry s id = some s1) : ConfigPres s s1 ∧ TimerFrame s s1 := by
  obtain ⟨c1, t1, r1, _, f1⟩ := removeEntry_config h
  refine ⟨⟨c1, t1, r1⟩, fun id2 => ?_⟩
  obtain ⟨_, _, _, hts, _, htp⟩ := f1 id2
  exact ⟨Or.inl hts, htp.imp (fun h => h) Or.inl⟩

theorem insertEntry_frame {s s1 : CacheState} {k v now : Nat}
    (h : insertEntry s k v now = some s1) :
    ConfigPres s s1 ∧ TimerFrame s s1 := by
  obtain ⟨s2, hI, c1, t1, r1, _, _, _, _, _, _, hts, htp, _, fold⟩ :=
    insertEntry_spec s k v now
  rw [hI] at h
  injection h with h
  subst h
  refine ⟨⟨c1, t1, r1⟩, fun id2 => ?_⟩
  by_cases hid : id2 = s.entries.length
  · subst hid
    by_cases h0 : 0 < s.ttl
    · exact ⟨Or.inr (Or.inr h0), Or.inr (Or.inr h0)⟩
    · refine ⟨Or.inr (Or.inl ?_), Or.inr (Or.inl ?_)⟩
      · rw [hts]
        simpa using h0
      · rw [htp]
        simpa using h0
  · obtain ⟨_, _, _, hts2, htp2, _⟩ := fold id2 hid
    exact ⟨Or.inl hts2, Or.inl htp2⟩

theorem updateEntry_frame {s s1 : CacheState} {id v now : Nat}
    (h : updateEntry s id v now = some s1) :
    ConfigPres s s1 ∧ TimerFrame s s1 := by
  obtain ⟨c1, t1, r1, _, _, ff, _, hts, htp⟩ := updateEntry_config h
  refine ⟨⟨c1, t1, r1⟩, fun id2 => ?_⟩
  by_cases hid : id2 = id
  · subst hid
    exact ⟨Or.inl hts, htp.imp (fun h => h) Or.inr⟩
  · obtain ⟨_, _, _, hts2, htp2, _⟩ := ff id2 hid
    exact ⟨Or.inl hts2, Or.inl htp2⟩

theorem setOp_frame {s s1 : CacheState} {k v now : Nat} {b : Bool}
    (h : setOp s k v now = some (s1, b)) :
    ConfigPres s s1 ∧ TimerFrame s s1 := by
  cases hG : itemsGet s.items k with
  | some id =>
    rw [setOp_present v now hG] at h
    cases hU : updateEntry s id v now with
    | none => rw [hU, Option.map_none'] at h; exact absurd h (by simp)
    | some u =>
      rw [hU, Option.map_some'] at h
      injection h with h
      have hu : u = s1 := congrArg Prod.fst h
      subst hu
      exact updateEntry_frame hU
  | none =>
    rw [setOp_absent v now hG] at h
    by_cases hev : s.heap.length = s.cap
    · rw [if_pos hev] at h
      cases hH : s.heap.head? with
      | none => rw [hH, Option.none_bind] at h; exact absurd h (by simp)
      | some root =>
        rw [hH, Option.some_bind] at h
        cases hRem : removeEntry s root with
        | none => rw [hRem, Option.none_bind] at h; exact absurd h (by simp)
        | some sA =>
          rw [hRem, Option.some_bind] at h
          cases hIns : insertEntry sA k v now with
          | none => rw [hIns, Option.map_none'] at h; exact absurd h (by simp)
          | some sB =>
            rw [hIns, Option.map_some'] at h
            injection h with h
            have hu : sB = s1 := congrArg Prod.fst h
            subst hu
            obtain ⟨⟨c1, t1, r1⟩, tf1⟩ := removeEntry_frame hRem
            obtain ⟨⟨c2, t2, r2⟩, tf2⟩ := insertEntry_frame hIns
            exact ⟨⟨c2.trans c1, t2.trans t1, r2.trans r1⟩,
              timerFrame_comp t1 tf1 tf2⟩
    · rw [if_neg hev] at h
      cases hIns : insertEntry s k v now with
      | none => rw [hIns, Option.map_none'] at h; exact absurd h (by simp)
      | some sB =>
        rw [hIns, Option.map_some'] at h
        injection h with h
        have hu : sB = s1 := congrArg Prod.fst h
        subst hu
        exact insertEntry_frame hIns

theorem getOp_frame {s s1 : CacheState} {k now : Nat}
    {r : Option Nat × Bool} (h : getOp s k now = some (r, s1)) :
    ConfigPres s s1 ∧ TimerFrame s s1 := by
  cases hG : itemsGet s.items k with
  | none =>
    rw [getOp_absent now hG] at h
    injection h with h
    have hu : s = s1 := congrArg Prod.snd h
    subst hu
    exact ⟨⟨rfl, rfl, rfl⟩, timerFrame_refl _⟩
  | some id =>
    rw [getOp_present now hG] at h
    by_cases hLive : s.ttl = 0 ∨ now < (getE s id).expires
    · rw [if_pos hLive] at h
      by_cases hNR : s.noReset
      · rw [if_pos hNR] at h
        injection h with h
        have hu : s = s1 := congrArg Prod.snd h
        subst hu
        exact ⟨⟨rfl, rfl, rfl⟩, timerFrame_refl _⟩
      · rw [if_neg hNR] at h
        cases hRst : resetEntryTTL s id now with
        | none => rw [hRst, Option.map_none'] at h; exact absurd h (by simp)
        | some u =>
          rw [hRst, Option.map_some'] at h
          injection h with h
          have hu : u = s1 := congrArg Prod.snd h
          subst hu
          obtain ⟨c1, t1, r1, _, _, ff, _, _, hts, htp⟩ :=
            resetEntryTTL_config hRst
          refine ⟨⟨c1, t1, r1⟩, fun id2 => ?_⟩
          by_cases hid : id2 = id
          · subst hid
            exact ⟨Or.inl hts, htp.imp (fun h => h) Or.inr⟩
          · obtain ⟨_, _, _, hts2, htp2, _⟩ := ff id2 hid
            exact ⟨Or.inl hts2, Or.inl htp2⟩
    · rw [if_neg hLive] at h
      injection h with h
      have hu : s = s1 := congrArg Prod.snd h
      subst hu
      exact ⟨⟨rfl, rfl, rfl⟩, timerFrame_refl _⟩

theorem delOp_frame {s s1 : CacheState} {k : Nat} {b : Bool}
    (h : delOp s k = some (s1, b)) : ConfigPres s s1 ∧ TimerFrame s s1 := by
  cases hG : itemsGet s.items k with
  | none =>
    rw [delOp_absent hG] at h
    injection h with h
    have hu : s = s1 := congrArg Prod.fst h
    subst hu
    exact ⟨⟨rfl, rfl, rfl⟩, timerFrame_refl _⟩
  | some id =>
    rw [delOp_present hG] at h
    cases hRem : removeEntry s id with
    | none => rw [hRem, Option.map_none'] at h; exact absurd h (by simp)
    | some u =>
      rw [hRem, Option.map_some'] at h
      injection h with h
      have hu : u = s1 := congrArg Prod.fst h
      subst hu
      exact removeEntry_frame hRem

theorem purgeOp_frame (s : CacheState) :
    ConfigPres s (purgeOp s) ∧ TimerFrame s (purgeOp s) := by
  obtain ⟨c1, t1, r1, _, _, _, f1⟩ := purgeOp_config s
  refine ⟨⟨c1, t1, r1⟩, fun id => ?_⟩
  obtain ⟨_, _, _, hts, htp, _⟩ := f1 id
  exact ⟨Or.inl hts, Or.inl htp⟩

theorem expireOp_frame {s s1 : CacheState} {id : Nat}
    (h : expireOp s id = some s1) : ConfigPres s s1 ∧ TimerFrame s s1 := by
  unfold expireOp at h
  obtain ⟨⟨c1, t1, r1⟩, tf1⟩ := removeEntry_frame h
  have hmid : ConfigPres s (modE s id (fun e =>
      { e with timerPending := false })) ∧
      TimerFrame s (modE s id (fun e => { e with timerPending := false })) := by
    refine ⟨⟨rfl, rfl, rfl⟩, fun id2 => ?_⟩
    by_cases hid : id2 = id
    · subst hid
      by_cases hlt : id2 < s.entries.length
      · rw [getE_modE_self _ hlt]
        exact ⟨Or.inl rfl, Or.inr (Or.inl rfl)⟩
      · rw [modE_oob _ (by omega)]
        exact ⟨Or.inl rfl, Or.inl rfl⟩
    · rw [getE_modE_ne _ hid]
      exact ⟨Or.inl rfl, Or.inl rfl⟩
  obtain ⟨⟨c0, t0, r0⟩, tf0⟩ := hmid
  exact ⟨⟨c1.trans c0, t1.trans t0, r1.trans r0⟩,
    timerFrame_comp t0 tf0 tf1⟩

/-- One step never changes the configuration and moves timers only as
`TimerFrame` allows. -/
theorem step_frame {a b : Nat × CacheState} (h : Step a b) :
    ConfigPres a.2 b.2 ∧ TimerFrame a.2 b.2 := by
  cases h with
  | set k v _ hop => exact setOp_frame hop
  | get k _ hop => exact getOp_frame hop
  | del k _ hop => exact delOp_frame hop
  | purge _ => exact purgeOp_frame _
  | expire id _ _ _ hop => exact expireOp_frame hop

/-- Configuration is constant along any reachable execution. -/
theorem reach_config {a b : Nat × CacheState} (h : Reach a b) :
    ConfigPres a.2 b.2 := by
  induction h with
  | refl => exact ⟨rfl, rfl, rfl⟩
  | tail _ hstep ih =>
    obtain ⟨c1, t1, r1⟩ := ih
    obtain ⟨⟨c2, t2, r2⟩, _⟩ := step_frame hstep
    exact ⟨c2.trans c1, t2.trans t1, r2.trans r1⟩

/-! ### Claims on Get, Del and Set -/

/-- C6: with `WithoutReset` configured, `Get` on a live key returns its
value and `found = true` while leaving the cache state entirely unchanged
— the returned state is the input state itself, so the entry's deadline,
its heap position, its scheduled callback and every other entry are
exactly as before the read. -/
theorem get_without_reset_pure (s : CacheState) (k id now : Nat)
    (hNR : s.noReset = true) (hGet : itemsGet s.items k = some id)
    (hLive : s.ttl = 0 ∨ now < (getE s id).expires) :
    getOp s k now = some ((some (getE s id).value, true), s) := by
  rw [getOp_present now hGet, if_pos hLive, if_pos hNR]

theorem get_without_reset_pure_witness :
    getOp c6WitState 7 3 = some ((some 42, true), c6WitState) :=
  get_without_reset_pure c6WitState 7 0 3 (by decide) (by decide)
    (by decide)

theorem getE_mem {s : CacheState} {id : Nat} (h : id < s.entries.length) :
    getE s id ∈ s.entries := by
  unfold getE
  rw [List.getD_eq_getElem?_getD, List.getElem?_eq_getElem h]
  exact List.getElem_mem h

theorem itemsGet_of_mem_nodup {l : List (Nat × Nat)} {pr : Nat × Nat}
    (hnd : (l.map Prod.fst).Nodup) (hmem : pr ∈ l) :
    itemsGet l pr.1 = some pr.2 := by
  induction l with
  | nil => cases hmem
  | cons q t ih =>
    simp only [List.map_cons, List.nodup_cons] at hnd
    rcases List.mem_cons.mp hmem with h | h
    · rw [← h]
      simp [itemsGet]
    · have hq : ¬ q.1 = pr.1 := by
        intro he
        have hm : pr.1 ∈ t.map Prod.fst := List.mem_map_of_mem Prod.fst h
        rw [← he] at hm
        exact hnd.1 hm
      simp only [itemsGet, if_neg hq]
      exact ih hnd.2 h

/-- C10: `Del` and `Set` treat a key whose deadline has already passed
(but whose callback has not yet fired) as present: `Del` removes it and
returns `true`, `Set` updates it in place and returns `false`, while `Get`
and `Keys` on the same state perform the liveness check and treat the key
as absent. -/
theorem del_set_ignore_liveness (s : CacheState) (k id v now : Nat)
    (hInv : Inv s) (hGet : itemsGet s.items k = some id)
    (hDead : ¬ (s.ttl = 0 ∨ now < (getE s id).expires)) :
    (∃ s1, delOp s k = some (s1, true) ∧ itemsGet s1.items k = none ∧
      lenOp s1 + 1 = lenOp s) ∧
    (∃ s2, setOp s k v now = some (s2, false) ∧
      itemsGet s2.items k = some id ∧ (getE s2 id).value = v ∧
      lenOp s2 = lenOp s) ∧
    getOp s k now = some ((none, false), s) ∧ k ∉ keysOp s now := by
  obtain ⟨hcap, hlen, hle, hnd, hv, hbr, hho, hknd, hio, hhk, hto, htp⟩ := hInv
  have hpr : (k, id) ∈ s.items := itemsGet_mem hGet
  obtain ⟨hmem, hkey, hidlt⟩ := hio _ hpr
  refine ⟨?_, ?_, ?_, ?_⟩
  · obtain ⟨s1, hR, _, _, _, ri, _, _, _⟩ := removeEntry_spec hnd hv hbr hmem
    refine ⟨s1, ?_, ?_, ?_⟩
    · rw [delOp_present hGet, hR, Option.map_some']
    · rw [ri, hkey]
      exact itemsGet_itemsErase_self hknd
    · show s1.items.length + 1 = s.items.length
      rw [ri, hkey]
      exact itemsErase_length (List.mem_map_of_mem Prod.fst hpr)
  · have hmemM : id ∈ (modE s id (fun e => { e with value := v })).heap := by
      rw [modE_heap]
      exact hmem
    have hvM : ValidIds (modE s id (fun e => { e with value := v })) := by
      intro i hi
      rw [modE_heap] at hi
      rw [modE_entries_length]
      exact hv i hi
    have hbrM : Backref (modE s id (fun e => { e with value := v })) :=
      backref_modE hbr (fun _ => rfl)
    have hndM : (modE s id (fun e =>
        { e with value := v })).heap.Nodup := by
      rw [modE_heap]
      exact hnd
    have htsM : 0 < (modE s id (fun e =>
          { e with value := v })).ttl →
        (getE (modE s id (fun e => { e with value := v })) id).timerSet =
        true := by
      intro h0
      rw [getE_modE_self _ hidlt]
      show (getE s id).timerSet = true
      rw [hto _ (getE_mem hidlt)]
      revert h0
      show 0 < s.ttl → _
      intro h0
      simpa using h0
    obtain ⟨s2, hRst, _, _, _, ri2, _, _, _, _, _, _, _, _, rv2, _, _⟩ :=
      resetEntryTTL_spec hndM hvM hbrM hmemM htsM now
    refine ⟨s2, ?_, ?_, ?_, ?_⟩
    · rw [setOp_present v now hGet]
      show (resetEntryTTL (modE s id (fun e =>
        { e with value := v })) id now).map _ = _
      rw [hRst, Option.map_some']
    · rw [ri2, modE_items]
      exact hGet
    · rw [rv2, getE_modE_self _ hidlt]
    · show s2.items.length = s.items.length
      rw [ri2, modE_items]
  · rw [getOp_present now hGet, if_neg hDead]
  · intro hk
    obtain ⟨p, hpF, hp1⟩ := List.mem_map.mp hk
    obtain ⟨hpMem, hpPred⟩ := List.mem_filter.mp hpF
    have hpg : itemsGet s.items p.1 = some p.2 :=
      itemsGet_of_mem_nodup hknd hpMem
    rw [hp1] at hpg
    have hpid : p.2 = id := by
      have := hpg.symm.trans hGet
      injection this
    apply hDead
    rw [← hpid]
    simpa using hpPred

theorem del_set_ignore_liveness_witness :
    ∃ s1, delOp c10WitState 3 = some (s1, true) ∧
      itemsGet s1.items 3 = none ∧ lenOp s1 + 1 = lenOp c10WitState :=
  (del_set_ignore_liveness c10WitState 3 0 99 8 (by decide) (by decide)
    (by decide)).1

/-- C5: `Get(key)` returns `found = true` exactly when the key is in the
key index and live (`ttl == 0` or the instant is before its deadline);
an absent key, or a present one whose deadline passed, reports
`(nil, false)` with the state unchanged; and a live hit with reset enabled
and `ttl > 0` returns the stored value, moves the entry's deadline and
timer to `now + ttl`, and re-fixes the heap (same members, back-references
intact), leaving the key index and all other entries unchanged. -/
theorem get_liveness_and_reset (s : CacheState) (k now : Nat)
    (hInv : Inv s) :
    ((∃ r s1, getOp s k now = some ((some r, true), s1)) ↔
      (∃ id, itemsGet s.items k = some id ∧
        (s.ttl = 0 ∨ now < (getE s id).expires))) ∧
    (∀ id, itemsGet s.items k = some id →
      ¬ (s.ttl = 0 ∨ now < (getE s id).expires) →
      getOp s k now = some ((none, false), s)) ∧
    (itemsGet s.items k = none → getOp s k now = some ((none, false), s)) ∧
    (∀ id, itemsGet s.items k = some id →
      (s.ttl = 0 ∨ now < (getE s id).expires) →
      s.noReset = false → 0 < s.ttl →
      ∃ s1, getOp s k now = some ((some (getE s id).value, true), s1) ∧
        (getE s1 id).expires = now + s.ttl ∧
        (getE s1 id).timerPending = true ∧
        (getE s1 id).timerAt = now + s.ttl ∧
        s1.items = s.items ∧ s1.heap.Perm s.heap ∧ Backref s1 ∧
        (∀ id2, id2 ≠ id → EqExceptIndex (getE s1 id2) (getE s id2))) := by
  obtain ⟨hcap, hlen, hle, hnd, hv, hbr, hho, hknd, hio, hhk, hto, htp⟩ := hInv
  have live : ∀ id, itemsGet s.items k = some id →
      (s.ttl = 0 ∨ now < (getE s id).expires) →
      ∃ s1, getOp s k now = some ((some (getE s id).value, true), s1) := by
    intro id hGet hLive
    by_cases hNR : s.noReset
    · exact ⟨s, by rw [getOp_present now hGet, if_pos hLive, if_pos hNR]⟩
    · obtain ⟨hmem, hkey, hidlt⟩ := hio _ (itemsGet_mem hGet)
      have hts : 0 < s.ttl → (getE s id).timerSet = true := by
        intro h0
        rw [hto _ (getE_mem hidlt)]
        simpa using h0
      obtain ⟨s1, hRst, _, _, _, _, _, _, _, _, _, _, _, _, rv, _, _⟩ :=
        resetEntryTTL_spec hnd hv hbr hmem hts now
      refine ⟨s1, ?_⟩
      rw [getOp_present now hGet, if_pos hLive, if_neg hNR, hRst,
        Option.map_some', rv]
  refine ⟨⟨?_, ?_⟩, ?_, ?_, ?_⟩
  · rintro ⟨r, s1, hEq⟩
    cases hGet : itemsGet s.items k with
    | none =>
      rw [getOp_absent now hGet] at hEq
      injection hEq with hEq
      have : (none : Option Nat) = some r :=
        congrArg Prod.fst (congrArg Prod.fst hEq)
      exact absurd this (by simp)
    | some id =>
      refine ⟨id, rfl, ?_⟩
      by_contra hDead
      rw [getOp_present now hGet, if_neg hDead] at hEq
      injection hEq with hEq
      have : (none : Option Nat) = some r :=
        congrArg Prod.fst (congrArg Prod.fst hEq)
      exact absurd this (by simp)
  · rintro ⟨id, hGet, hLive⟩
    obtain ⟨s1, hEq⟩ := live id hGet hLive
    exact ⟨(getE s id).value, s1, hEq⟩
  · intro id hGet hDead
    rw [getOp_present now hGet, if_neg hDead]
  · intro hAbs
    exact getOp_absent now hAbs
  · intro id hGet hLive hNR h0
    obtain ⟨hmem, hkey, hidlt⟩ := hio _ (itemsGet_mem hGet)
    have hts : 0 < s.ttl → (getE s id).timerSet = true := by
      intro h0
      rw [hto _ (getE_mem hidlt)]
      simpa using h0
    obtain ⟨s1, hRst, _, _, _, ri, _, rp, _, _, rbr, _, rf, _, rv, _, rexp,
      rpend, rat⟩ := resetEntryTTL_spec hnd hv hbr hmem hts now
    refine ⟨s1, ?_, ?_, ?_, ?_, ri, rp, rbr, rf⟩
    · rw [getOp_present now hGet, if_pos hLive, if_neg (by rw [hNR]; simp),
        hRst, Option.map_some', rv]
    · exact rexp
    · rw [rpend, if_pos h0]
    · rw [rat, if_pos h0]

theorem get_liveness_and_reset_witness :
    ∃ r s1, getOp c5WitState 9 2 = some ((some r, true), s1) :=
  (get_liveness_and_reset c5WitState 9 2 (by decide)).1.mpr
    ⟨0, by decide, by decide⟩

/-! ### C3: which destruction paths cancel the scheduled callback -/

/-- C3 counterexample: `Purge` destroys the key-index entry of a pending
callback, yet after the purge the callback is still scheduled —
`timerPending` stays `true` because `Purge` never stops timers. -/
theorem purge_leaves_callback_pending :
    itemsGet c3WitState.items 4 = some 0 ∧
    (getE c3WitState 0).timerPending = true ∧
    itemsGet (purgeOp c3WitState).items 4 = none ∧
    (getE (purgeOp c3WitState) 0).timerPending = true := by decide

/-- C3 (amended): explicit `Del`, eviction on overflow and the entry's own
expiration all leave the destroyed entry with no pending scheduled
callback; `Purge`, however, cancels nothing — it leaves every entry's
`timerPending` exactly as it was. -/
theorem destruction_cancels_callbacks (s : CacheState) (k now : Nat)
    (hInv : Inv s) :
    (∀ id, itemsGet s.items k = some id →
      ∃ s1, delOp s k = some (s1, true) ∧
        (getE s1 id).timerPending = false) ∧
    (∀ root v, itemsGet s.items k = none → s.heap.length = s.cap →
      s.heap.head? = some root →
      ∃ s2, setOp s k v now = some (s2, true) ∧
        (getE s2 root).timerPending = false) ∧
    (∀ id, id ∈ s.heap →
      ∃ s1, expireOp s id = some s1 ∧
        (getE s1 id).timerPending = false) ∧
    (∀ id, (getE (purgeOp s) id).timerPending =
      (getE s id).timerPending) := by
  obtain ⟨hcap, hlen, hle, hnd, hv, hbr, hho, hknd, hio, hhk, hto, htp⟩ := hInv
  have pend_off : ∀ {u : CacheState} {id : Nat}, id < u.entries.length →
      (∀ e ∈ u.entries, e.timerPending = true → e.timerSet = true) →
      ¬ (getE u id).timerSet = true → (getE u id).timerPending = false := by
    intro u id hlt htpu hset
    cases hpd : (getE u id).timerPending with
    | false => rfl
    | true => exact absurd (htpu _ (getE_mem hlt) hpd) hset
  refine ⟨?_, ?_, ?_, ?_⟩
  · intro id hGet
    obtain ⟨hmem, hkey, hidlt⟩ := hio _ (itemsGet_mem hGet)
    obtain ⟨s1, hR, _, _, _, _, _, _, _, _, _, _, _, _, rpend⟩ :=
      removeEntry_spec hnd hv hbr hmem
    refine ⟨s1, by rw [delOp_present hGet, hR, Option.map_some'], ?_⟩
    rw [rpend]
    by_cases hset : (getE s id).timerSet = true
    · rw [if_pos hset]
    · rw [if_neg hset]
      exact pend_off hidlt htp hset
  · intro root v hAbs hfull hHead
    have hmem : root ∈ s.heap := List.mem_of_mem_head? hHead
    have hidlt : root < s.entries.length := hv root hmem
    obtain ⟨s1, hR, _, _, _, _, re1, _, _, _, _, _, _, _, rpend⟩ :=
      removeEntry_spec hnd hv hbr hmem
    have hp1 : (getE s1 root).timerPending = false := by
      rw [rpend]
      by_cases hset : (getE s root).timerSet = true
      · rw [if_pos hset]
      · rw [if_neg hset]
        exact pend_off hidlt htp hset
    obtain ⟨s2, hI, _, _, _, _, _, _, _, _, _, _, _, _, fold⟩ :=
      insertEntry_spec s1 k v now
    refine ⟨s2, ?_, ?_⟩
    · rw [setOp_absent v now hAbs, if_pos hfull, hHead, Option.some_bind,
        hR, Option.some_bind, hI, Option.map_some']
    · have hne : root ≠ s1.entries.length := by
        rw [re1]
        omega
      obtain ⟨_, _, _, _, hpd, _⟩ := fold root hne
      rw [hpd]
      exact hp1
  · intro id hmem
    have hidlt : id < s.entries.length := hv id hmem
    have hndM : (modE s id (fun e =>
        { e with timerPending := false })).heap.Nodup := by
      rw [modE_heap]
      exact hnd
    have hvM : ValidIds (modE s id (fun e =>
        { e with timerPending := false })) := by
      intro i hi
      rw [modE_heap] at hi
      rw [modE_entries_length]
      exact hv i hi
    have hbrM : Backref (modE s id (fun e =>
        { e with timerPending := false })) :=
      backref_modE hbr (fun _ => rfl)
    have hmemM : id ∈ (modE s id (fun e =>
        { e with timerPending := false })).heap := by
      rw [modE_heap]
      exact hmem
    obtain ⟨s1, hR, _, _, _, _, _, _, _, _, _, _, _, _, rpend⟩ :=
      removeEntry_spec hndM hvM hbrM hmemM
    refine ⟨s1, hR, ?_⟩
    rw [rpend, getE_modE_self _ hidlt]
    show (if (getE s id).timerSet = true then false else false) = false
    by_cases hset : (getE s id).timerSet = true
    · rw [if_pos hset]
    · rw [if_neg hset]
  · intro id
    obtain ⟨_, _, _, _, _, _, f1⟩ := purgeOp_config s
    exact (f1 id).2.2.2.2.1

theorem destruction_cancels_callbacks_witness :
    ∃ s1, delOp c3WitState 4 = some (s1, true) ∧
      (getE s1 0).timerPending = false :=
  (destruction_cancels_callbacks c3WitState 4 0 (by decide)).1 0 (by decide)

/-! ### C7: defensive behaviour of the index-taking heap operations -/

/-- C7 counterexample: the raw index-taking heap operations are not
defensive — `Remove` at the invalidated index `-1` deletes the last heap
element instead of doing nothing, and `Fix` at an index equal to the
current size reads past the end of the heap and faults (modelled as
`none`). -/
theorem heap_oob_counterexample :
    (heapRemove c7State (-1)).map (fun r => (r.1.heap, r.2)) =
      some ([0], some 1) ∧
    heapFix c7State 2 = none := by decide

/-- C7 (amended): the defensive no-ops live in `Less`, `Swap` and
`removeEntry`, not in every heap operation: `Less` and `Swap` do nothing
on equal or negative indices, and removing an entry whose recorded heap
index has been invalidated (negative) skips the heap entirely, leaving it
unchanged; indices equal to the current size, or negative indices handed
to raw `Remove`/`Fix`, are not protected. -/
theorem heap_guard_noops (s : CacheState) (i j : Int) (id : Nat)
    (hij : i = j ∨ i < 0 ∨ j < 0) (hidx : (getE s id).index < 0) :
    hLess s i j = some false ∧ hSwap s i j = some s ∧
    ∃ s1, removeEntry s id = some s1 ∧ s1.heap = s.heap ∧
      s1.entries.length = s.entries.length ∧
      (∀ id2, id2 ≠ id → EqExceptIndex (getE s1 id2) (getE s id2)) := by
  refine ⟨hLess_guard s hij, hSwap_guard s hij, ?_⟩
  by_cases hset : (getE s id).timerSet
  · refine ⟨{ modE s id (fun e => { e with timerPending := false }) with
      items := itemsErase (modE s id (fun e =>
        { e with timerPending := false })).items (getE (modE s id (fun e =>
        { e with timerPending := false })) id).key }, ?_, ?_, ?_, ?_⟩
    · unfold removeEntry
      rw [if_neg (not_le.mpr hidx), Option.map_some']
      simp only [hset, if_true]
    · show (modE s id (fun e =>
        { e with timerPending := false })).heap = s.heap
      rw [modE_heap]
    · show (modE s id (fun e =>
        { e with timerPending := false })).entries.length = s.entries.length
      rw [modE_entries_length]
    · intro id2 hne
      show EqExceptIndex (getE (modE s id (fun e =>
        { e with timerPending := false })) id2) (getE s id2)
      rw [getE_modE_ne _ hne]
      exact eqExceptIndex_refl _
  · refine ⟨{ s with items := itemsErase s.items (getE s id).key }, ?_, rfl,
      rfl, fun id2 _ => eqExceptIndex_refl _⟩
    unfold removeEntry
    rw [if_neg (not_le.mpr hidx), Option.map_some']
    simp only [hset, if_false]
    rfl

theorem heap_guard_noops_witness :
    ∃ s1, removeEntry c7WitState 0 = some s1 ∧ s1.heap = c7WitState.heap ∧
      s1.entries.length = c7WitState.entries.length ∧
      (∀ id2, id2 ≠ 0 → EqExceptIndex (getE s1 id2) (getE c7WitState id2)) :=
  (heap_guard_noops c7WitState 3 3 0 (by decide) (by decide)).2.2

/-! ### Construction, and the purge/reinsert execution trace -/

theorem New_spec (cap ttl : Int) (nr : Bool) :
    (New cap ttl nr = none ↔ cap ≤ 0 ∨ ttl < 0) ∧
    ∀ s0, New cap ttl nr = some s0 →
      s0.cap = cap.toNat ∧ s0.ttl = ttl.toNat ∧ s0.noReset = nr ∧
      s0.entries = [] ∧ s0.items = [] ∧ s0.heap = [] := by
  unfold New
  by_cases h : cap ≤ 0 ∨ ttl < 0
  · rw [if_pos h]
    exact ⟨⟨fun _ => h, fun _ => rfl⟩, fun s0 hs => absurd hs (by simp)⟩
  · rw [if_neg h]
    refine ⟨⟨fun hc => absurd hc (by simp), fun hc => absurd hc h⟩, ?_⟩
    intro s0 hs
    injection hs with hs
    rw [← hs]
    exact ⟨rfl, rfl, rfl, rfl, rfl, rfl⟩

/-- C2: refuted on an execution trace.  From a fresh `New(1, ttl 5)` cache,
the sequence Set(0) at 0, Purge at 0, Set(0) again at 2, then the stale
pre-purge expiration callback at 5 reaches a state whose key index is
empty while the expiration index still holds one member — and that member
is live at instant 5 — so the two indices disagree, violating the
claimed size equality. -/
theorem purge_then_reinsert_breaks_invariant :
    New 1 5 false = some bugS0 ∧
    Reach (0, bugS0) (5, bugS4) ∧
    lenOp bugS4 = 0 ∧ bugS4.heap = [1] ∧ 5 < (getE bugS4 1).expires := by
  have h1 : Step (0, bugS0) (0, bugS1) :=
    Step.set (b := false) 0 10 (le_refl 0) (by decide)
  have h2 : Step (0, bugS1) (2, bugS2) := Step.purge (by omega)
  have h3 : Step (2, bugS2) (2, bugS3) :=
    Step.set (b := false) 0 20 (le_refl 2) (by decide)
  have h4 : Step (2, bugS3) (5, bugS4) :=
    Step.expire 0 (by omega) (by decide) (by decide) (by decide)
  refine ⟨by decide, ?_, by decide, by decide, by decide⟩
  exact Relation.ReflTransGen.tail (Relation.ReflTransGen.tail
    (Relation.ReflTransGen.tail (Relation.ReflTransGen.single h1) h2) h3) h4

/-- C4: refuted on the same trace.  In the post-purge state `bugS3` the
stale entry 0 has an invalidated heap index (`-1`) and a still-pending
callback, and key 0 has been re-bound to the fresh entry 1; when the
stale callback runs it is not a no-op — `removeEntry` deletes key 0 from
the key index unconditionally, destroying the post-purge entry's binding
while leaving it in the expiration index. -/
theorem stale_callback_not_noop :
    (getE bugS3 0).timerPending = true ∧ (getE bugS3 0).index = -1 ∧
    itemsGet bugS3.items 0 = some 1 ∧
    expireOp bugS3 0 = some bugS4 ∧
    itemsGet bugS4.items 0 = none ∧ bugS4.heap = bugS3.heap := by decide

/-- C8 counterexample: `Len()` is the raw size of the key index, not the
live-entry count — in the reachable state holding one entry whose
deadline (5) has passed at instant 10, `Len()` still returns 1 while the
live count is 0. -/
theorem len_counts_expired_entries :
    New 1 5 false = some bugS0 ∧ Reach (0, bugS0) (10, bugS1) ∧
    lenOp bugS1 = 1 ∧ liveEntryCount bugS1 10 = 0 := by
  have h1 : Step (0, bugS0) (0, bugS1) :=
    Step.set (b := false) 0 10 (le_refl 0) (by decide)
  have h2 : Step (0, bugS1) (10, bugS1) :=
    Step.get (r := (none, false)) 5 (by omega) (by decide)
  exact ⟨by decide, Relation.ReflTransGen.tail
    (Relation.ReflTransGen.single h1) h2, by decide, by decide⟩

/-- C8 (amended): in every reachable state `Len()` returns the size of
the key index, which bounds the live count from above and equals it
whenever the ttl is disabled; entries past their deadline whose callback
has not yet fired keep counting.  `Cap()` always returns the capacity
fixed at construction. -/
theorem len_and_cap (s0 s : CacheState) (cap ttl : Int) (nr : Bool)
    (t t' now : Nat) (hNew : New cap ttl nr = some s0)
    (hR : Reach (t, s0) (t', s)) :
    lenOp s = s.items.length ∧ liveEntryCount s now ≤ lenOp s ∧
    (s.ttl = 0 → liveEntryCount s now = lenOp s) ∧
    capOp s = cap.toNat := by
  obtain ⟨hc0, _, _, _, _, _⟩ := (New_spec cap ttl nr).2 s0 hNew
  obtain ⟨hc, _, _⟩ := reach_config hR
  refine ⟨rfl, List.length_filter_le _ _, ?_, ?_⟩
  · intro h0
    show (s.items.filter _).length = s.items.length
    rw [List.filter_eq_self.mpr]
    intro p _
    simp [h0]
  · show s.cap = cap.toNat
    rw [hc, hc0]

theorem len_and_cap_witness :
    lenOp bugS0 = bugS0.items.length ∧
    liveEntryCount bugS0 3 ≤ lenOp bugS0 ∧
    (bugS0.ttl = 0 → liveEntryCount bugS0 3 = lenOp bugS0) ∧
    capOp bugS0 = (1 : Int).toNat :=
  len_and_cap bugS0 bugS0 1 5 false 0 0 3 (by decide)
    Relation.ReflTransGen.refl

/-- C9: `New` returns the invalid-configuration sentinel exactly when the
capacity is nonpositive or the ttl negative; a `ttl == 0` construction is
valid and no entry in any reachable state of such a cache ever owns a
scheduler timer or a pending callback. -/
theorem new_validation_and_zero_ttl (cap ttl : Int) (nr : Bool) :
    (New cap ttl nr = none ↔ cap ≤ 0 ∨ ttl < 0) ∧
    (∀ s0, New cap ttl nr = some s0 → ttl = 0 →
      ∀ t t' s, Reach (t, s0) (t', s) → NoTimers s) := by
  refine ⟨(New_spec cap ttl nr).1, ?_⟩
  intro s0 hNew h0 t t' s hR
  obtain ⟨_, ht0, _, hent, _, _⟩ := (New_spec cap ttl nr).2 s0 hNew
  have hT0 : s0.ttl = 0 := by
    rw [ht0, h0]
    rfl
  have base : NoTimers s0 := by
    intro id
    constructor
    · show (getE s0 id).timerSet = false
      simp [getE, hent]
      rfl
    · show (getE s0 id).timerPending = false
      simp [getE, hent]
      rfl
  have main : ∀ p, Reach (t, s0) p → p.2.ttl = 0 ∧ NoTimers p.2 := by
    intro p hRp
    induction hRp with
    | refl => exact ⟨hT0, base⟩
    | tail hpre hstep ih =>
      obtain ⟨ihT, ihN⟩ := ih
      obtain ⟨⟨_, hT, _⟩, hF⟩ := step_frame hstep
      refine ⟨hT.trans ihT, fun id => ?_⟩
      obtain ⟨hs, hp⟩ := hF id
      obtain ⟨hsN, hpN⟩ := ihN id
      constructor
      · rcases hs with h | h | h
        · rw [h, hsN]
        · exact h
        · rw [ihT] at h
          exact absurd h (by omega)
      · rcases hp with h | h | h
        · rw [h, hpN]
        · exact h
        · rw [ihT] at h
          exact absurd h (by omega)
  exact (main (t', s) hR).2

theorem new_validation_and_zero_ttl_witness :
    New (-1) 5 false = none ∧
    NoTimers { cap := 1, ttl := 0, noReset := false, entries := [],
               items := [], heap := [] } := by
  refine ⟨(new_validation_and_zero_ttl (-1) 5 false).1.mpr
    (Or.inl (by omega)), ?_⟩
  exact (new_validation_and_zero_ttl 1 0 false).2 _ (by decide) rfl 0 0 _
    Relation.ReflTransGen.refl

end Ttlru
